import Mathlib

/-!
# golandfmt: the wrap-if-long engine of `formatter.go`

A shallow embedding of the wrapping engine (`visualLen`, `normalizeWhitespace`,
`extractItems`, `packItems`, `findLineStart`, `extractIndent`, `processNode`)
followed by the properties the specification states about it.

Conventions of the embedding.

* A Go `string` is the list of its characters (`GoString`).  Go source text is
  UTF-8, the `range` loops of the source iterate characters, and the offsets the
  position service hands out fall on character boundaries; an offset of the model
  counts characters.  On ASCII text, which is what every delimiter is, a character
  offset and a byte offset are the same number.
* Go's `int` is taken at its 64-bit size (amd64, arm64): a value is an `Int` in the
  range from `-2^63` to `2^63 - 1`, and the result of `+`, `*`, `/` and `++` on
  columns and widths is brought back into that range by `wrapInt`, the two's
  complement wrap-around the language prescribes for signed overflow.  Offsets into
  a buffer lie between 0 and its length, and `closeOff + 1`, `offset - 1` and
  `i + 1` stay within these bounds; they are not wrapped.  `maxLen` and `tabWidth`
  are arbitrary integers in the theorems, the values of an `int` among them.
* A run-time panic (integer division by zero, index or slice out of range) is the
  value `none`; a function that can panic returns an `Option`.
* `go/token` is outside the repository: a `FileSet` is taken as the function that
  maps a position to its offset.
-/

namespace Golandfmt

/-- A Go string: the sequence of its characters. -/
abbrev GoString := List Char

/-- Go's `len(s)` as an `int`. -/
def len (s : GoString) : Int := (s.length : Int)

/-- The value of a Go `int` computation whose mathematical result is `x`: the
integer of the range `-2^63 .. 2^63 - 1` that is congruent to `x` modulo `2^64`. -/
def wrapInt (x : Int) : Int :=
  (x + 9223372036854775808) % 18446744073709551616 - 9223372036854775808

/-- Go's integer quotient `a / b`: truncated towards zero, and a run-time panic
when the divisor is zero. -/
def goDiv (a b : Int) : Option Int :=
  if b = 0 then none else some (wrapInt (Int.tdiv a b))

/-- Go's index expression `s[i]`: a panic when `i` is out of range. -/
def index (s : GoString) (i : Int) : Option Char :=
  if 0 ≤ i ∧ i < len s then s[i.toNat]? else none

/-- Go's slice expression `s[lo:hi]`: a panic unless `0 <= lo <= hi <= len(s)`. -/
def slice (s : GoString) (lo hi : Int) : Option GoString :=
  if 0 ≤ lo ∧ lo ≤ hi ∧ hi ≤ len s then some ((s.take hi.toNat).drop lo.toNat) else none

/-- Go's `strings.Join(elems, sep)`. -/
def Join : List GoString → GoString → GoString
  | [], _ => []
  | [a], _ => a
  | a :: b :: rest, sep => a ++ sep ++ Join (b :: rest) sep

/-- Go's `unicode.IsSpace`: the Latin-1 spaces and the other characters of the
Unicode `White_Space` property. -/
def isSpace (r : Char) : Bool :=
  let c := r.toNat
  if c ≤ 0xFF then
    c = 0x09 ∨ c = 0x0A ∨ c = 0x0B ∨ c = 0x0C ∨ c = 0x0D ∨ c = 0x20 ∨ c = 0x85 ∨ c = 0xA0
  else
    c = 0x1680 ∨ (0x2000 ≤ c ∧ c ≤ 0x200A) ∨ c = 0x2028 ∨ c = 0x2029 ∨ c = 0x202F ∨
      c = 0x205F ∨ c = 0x3000

/-- Go's `strings.TrimSpace`: the text without its leading and trailing white
space, as `unicode.IsSpace` defines it. -/
def TrimSpace (s : GoString) : GoString :=
  ((s.dropWhile isSpace).reverse.dropWhile isSpace).reverse

/-- A position of `go/token`. -/
abbrev Pos := Int

/-- The part of `token.Position` the engine reads. -/
structure Position where
  Offset : Int

/-- The position service: `fset.Position(p)` for a position `p`. -/
structure FileSet where
  Position : Pos → Position

/-- The construct descriptor of the source: delimiter positions and the start and
end position of every item, in two parallel slices. -/
structure wrappable where
  openPos : Pos
  closePos : Pos
  items : List Pos
  itemEnds : List Pos
  deriving DecidableEq

/-- The part of `ast.Field` the engine reads: `field.Pos()` and `field.End()`. -/
structure Field where
  Pos : Int
  End : Int

/-- The part of `ast.FieldList` the engine reads. -/
structure FieldList where
  Opening : Int
  List : List Field
  Closing : Int

/-- The part of `ast.FuncType` the engine reads; `none` is a `nil` field list. -/
structure FuncType where
  Params : Option FieldList
  Results : Option FieldList

/-- Go's `token.Pos.IsValid`: the position is not `token.NoPos`, which is 0. -/
def IsValid (p : Pos) : Bool := decide (p ≠ 0)

/-- One iteration of the loop of `visualLen`: a tab advances to the next tab stop,
any other character advances by one column. -/
def visualStep (tabWidth : Int) (col : Int) (ch : Char) : Option Int :=
  if ch = '\t' then
    (goDiv col tabWidth).bind fun q => some (wrapInt (wrapInt (q + 1) * tabWidth))
  else
    some (wrapInt (col + 1))

/-- The source's `visualLen(s, tabWidth)`. -/
def visualLen (s : GoString) (tabWidth : Int) : Option Int :=
  s.foldlM (visualStep tabWidth) 0

/-- One iteration of the loop of `normalizeWhitespace` on the pair
(builder contents, `inSpace`). -/
def normalizeStep (st : GoString × Bool) (r : Char) : GoString × Bool :=
  if r = '\n' ∨ r = '\r' ∨ r = '\t' ∨ r = ' ' then
    if !st.2 then (st.1 ++ [' '], true) else st
  else
    (st.1 ++ [r], false)

/-- The source's `normalizeWhitespace(s)`. -/
def normalizeWhitespace (s : GoString) : GoString :=
  if ¬ '\n' ∈ s then s
  else (s.foldl normalizeStep ([], false)).1

/-- The loop of `findLineStart`, with `k = i + 1`. -/
def findLineStartLoop (src : GoString) : Nat → Option Int
  | 0 => some 0
  | k + 1 =>
    (index src (k : Int)).bind fun c =>
      if c = '\n' then some ((k : Int) + 1) else findLineStartLoop src k

/-- The source's `findLineStart(src, offset)`. -/
def findLineStart (src : GoString) (offset : Int) : Option Int :=
  findLineStartLoop src offset.toNat

/-- The source's `extractIndent(linePrefix)`. -/
def extractIndent (linePrefix : GoString) : GoString :=
  linePrefix.takeWhile fun ch => ch = ' ' ∨ ch = '\t'

/-- The loop of `extractItems` over `n.items` and `n.itemEnds` in step; `acc` is
the slice `items` built so far.  A missing `n.itemEnds[i]` is a panic. -/
def extractItemsLoop (src : GoString) (fset : FileSet) :
    List Pos → List Pos → List GoString → Option (List GoString)
  | [], _, acc => some acc
  | _ :: _, [], _ => none
  | p :: ps, e :: es, acc =>
    let startOff := (fset.Position p).Offset
    let endOff := (fset.Position e).Offset
    if startOff < 0 ∨ endOff < 0 ∨ startOff > len src ∨ endOff > len src then
      extractItemsLoop src fset ps es acc
    else
      (slice src startOff endOff).bind fun raw =>
        extractItemsLoop src fset ps es (acc ++ [normalizeWhitespace (TrimSpace raw)])

/-- The source's `extractItems(src, fset, n)`. -/
def extractItems (src : GoString) (fset : FileSet) (n : wrappable) : Option (List GoString) :=
  extractItemsLoop src fset n.items n.itemEnds []

/-- The loop state of `packItems`. -/
structure PackState where
  lines : List GoString
  currentLineItems : List GoString
  currentVisLen : Int

/-- One iteration of the loop of `packItems`. -/
def packStep (indent : GoString) (indentVisLen maxLen tabWidth : Int)
    (st : PackState) (item : GoString) : Option PackState :=
  (visualLen item tabWidth).bind fun itemVisLen =>
    if st.currentLineItems.length = 0 then
      some { st with currentLineItems := st.currentLineItems ++ [item],
                     currentVisLen := wrapInt (indentVisLen + itemVisLen) }
    else
      let newVisLen := wrapInt (wrapInt (st.currentVisLen + 2) + itemVisLen)
      if wrapInt (newVisLen + 1) ≤ maxLen then
        some { st with currentLineItems := st.currentLineItems ++ [item],
                       currentVisLen := newVisLen }
      else
        some { lines := st.lines ++ [indent ++ Join st.currentLineItems ", ".toList ++ ",".toList],
               currentLineItems := [item],
               currentVisLen := wrapInt (indentVisLen + itemVisLen) }

/-- The slice `lines` of `packItems` as it stands just before the final
`strings.Join`. -/
def packItemsLines (items : List GoString) (indent : GoString) (maxLen tabWidth : Int) :
    Option (List GoString) :=
  (visualLen indent tabWidth).bind fun indentVisLen =>
    (items.foldlM (packStep indent indentVisLen maxLen tabWidth)
        { lines := [], currentLineItems := [], currentVisLen := indentVisLen }).bind fun st =>
      if st.currentLineItems.length > 0 then
        some (st.lines ++ [indent ++ Join st.currentLineItems ", ".toList ++ ",".toList])
      else
        some st.lines

/-- The source's `packItems(items, indent, maxLen, tabWidth)`. -/
def packItems (items : List GoString) (indent : GoString) (maxLen tabWidth : Int) :
    Option GoString :=
  (packItemsLines items indent maxLen tabWidth).bind fun lines =>
    some (Join lines "\n".toList ++ "\n".toList)

/-- The source's `processNode(src, fset, n, maxLen, tabWidth)`. -/
def processNode (src : GoString) (fset : FileSet) (n : wrappable) (maxLen tabWidth : Int) :
    Option GoString :=
  let openOff := (fset.Position n.openPos).Offset
  let closeOff := (fset.Position n.closePos).Offset
  if openOff < 0 ∨ closeOff < 0 ∨ openOff ≥ len src ∨ closeOff ≥ len src then
    some src
  else
    (index src openOff).bind fun openChar =>
    (index src closeOff).bind fun closeChar =>
    (extractItems src fset n).bind fun itemTexts =>
    if itemTexts.length = 0 then
      some src
    else
      (findLineStart src openOff).bind fun lineStart =>
      (slice src lineStart openOff).bind fun pre =>
      let linePrefix := extractIndent pre
      let singleLine := [openChar] ++ Join itemTexts ", ".toList ++ [closeChar]
      let fullLine := pre ++ singleLine
      let hasMultiLineItem := itemTexts.any fun item => decide ('\n' ∈ item)
      (if hasMultiLineItem then some false
        else (visualLen fullLine tabWidth).bind fun w => some (decide (w ≤ maxLen))).bind
      fun collapse =>
      (slice src 0 openOff).bind fun before =>
      (slice src (closeOff + 1) (len src)).bind fun after =>
      if collapse then
        some (before ++ singleLine ++ after)
      else
        let itemIndent := linePrefix ++ "\t".toList
        (packItems itemTexts itemIndent maxLen tabWidth).bind fun packed =>
          let wrapped := [openChar] ++ "\n".toList ++ packed ++ linePrefix ++ [closeChar]
          some (before ++ wrapped ++ after)

/-- The construct descriptor `collectFuncType` builds for a field list: the
delimiters of the list and, for every field, `field.Pos()` and `field.End()`. -/
def fieldListWrappable (fl : FieldList) : wrappable :=
  { openPos := fl.Opening, closePos := fl.Closing,
    items := fl.List.map fun field => field.Pos,
    itemEnds := fl.List.map fun field => field.End }

/-- The source's `collectFuncType(ft, nodes)`; the result is the slice `*nodes`
after the call. -/
def collectFuncType (ft : FuncType) (nodes : List wrappable) : List wrappable :=
  let nodes₁ :=
    match ft.Params with
    | some params =>
      if params.List.length > 0 then nodes ++ [fieldListWrappable params] else nodes
    | none => nodes
  match ft.Results with
  | some results =>
    if results.List.length > 1 ∧ IsValid results.Opening = true then
      nodes₁ ++ [fieldListWrappable results]
    else nodes₁
  | none => nodes₁

/-- The call `sort.Slice(nodes, less)` of `wrapIfLong`, with
`less(i, j) = nodes[i].openPos > nodes[j].openPos`: the constructs in descending
order of opening position.  (`sort.Slice` leaves the order of equal keys open; two
discovered constructs never open at the same position.) -/
def sortNodes (nodes : List wrappable) : List wrappable :=
  nodes.insertionSort fun a b => a.openPos ≥ b.openPos

/-- The loop `for _, n := range nodes` of `wrapIfLong` on the pair
(`result`, `changed`). -/
def wrapLoop (fset : FileSet) (maxLen tabWidth : Int) :
    List wrappable → GoString → Bool → Option (GoString × Bool)
  | [], result, changed => some (result, changed)
  | n :: rest, result, changed =>
    (processNode result fset n maxLen tabWidth).bind fun newResult =>
      if newResult ≠ result then wrapLoop fset maxLen tabWidth rest newResult true
      else wrapLoop fset maxLen tabWidth rest result changed

/-- The source's `wrapIfLong(src, maxLen, tabWidth)`.  `discover` stands for
`parser.ParseFile` followed by `collectWrappables`: the file set and the constructs
of a buffer, or the parse error.  A `[]byte` is a `GoString`, `nil` being the empty
one; the result is Go's triple (`[]byte`, `bool`, `error`). -/
def wrapIfLong {ε : Type} (discover : GoString → Except ε (FileSet × List wrappable))
    (src : GoString) (maxLen tabWidth : Int) : Option (GoString × Bool × Option ε) :=
  match discover src with
  | Except.error err => some ([], false, some err)
  | Except.ok (fset, nodes) =>
    if nodes.length = 0 then some (src, false, none)
    else
      (wrapLoop fset maxLen tabWidth (sortNodes nodes) src false).bind fun rc =>
        if !rc.2 then some (src, false, none) else some (rc.1, true, none)

/-- The source's `FormatWithTabWidth(src, maxLen, tabWidth)`, with `format.Source`
(`formatSource`) and the wrap pass (`wrapPass`, in the source `wrapIfLong`) as
parameters; the result is Go's pair (`[]byte`, `error`). -/
def FormatWithTabWidth {ε : Type} (formatSource : GoString → GoString × Option ε)
    (wrapPass : GoString → Int → Int → Option (GoString × Bool × Option ε))
    (src : GoString) (maxLen tabWidth : Int) : Option (GoString × Option ε) :=
  let fe := formatSource src
  if fe.2.isSome then some ([], fe.2)
  else
    (wrapPass fe.1 maxLen tabWidth).bind fun rce =>
      if rce.2.2.isSome ∨ (!rce.2.1) = true then some (fe.1, rce.2.2)
      else
        let fe₂ := formatSource rce.1
        if fe₂.2.isSome then some (rce.1, none) else some (fe₂.1, none)

/-- The source's `defaultTabWidth`. -/
def defaultTabWidth : Int := 4

/-- The source's `Format(src, maxLen)`. -/
def Format {ε : Type} (formatSource : GoString → GoString × Option ε)
    (wrapPass : GoString → Int → Int → Option (GoString × Bool × Option ε))
    (src : GoString) (maxLen : Int) : Option (GoString × Option ε) :=
  FormatWithTabWidth formatSource wrapPass src maxLen defaultTabWidth

/-! ## Definitions that follow the specification's words -/

/-- The column reached from column `col` after the character `ch`, as a total
function: the value `visualStep` returns when the tab width is not zero. -/
def colStep (tabWidth : Int) (col : Int) (ch : Char) : Int :=
  if ch = '\t' then wrapInt (wrapInt (wrapInt (Int.tdiv col tabWidth) + 1) * tabWidth)
  else wrapInt (col + 1)

/-- The column reached from column `col` after the text `s`. -/
def visualCol (s : GoString) (tabWidth : Int) (col : Int) : Int :=
  s.foldl (colStep tabWidth) col

/-- The value of `visualLen`, `0` standing for a panic. -/
def width (s : GoString) (tabWidth : Int) : Int := (visualLen s tabWidth).getD 0

/-- A packed line as the specification describes it: the indent, the items joined
by `", "`, and a trailing comma. -/
def renderLine (indent : GoString) (group : List GoString) : GoString :=
  indent ++ Join group ", ".toList ++ ",".toList

/-- The width the specification assigns to a line holding the items `line`:
`visualLen(indent)`, plus the widths of the items, plus 2 for every separator. -/
def lineWidth (indent : GoString) (tabWidth : Int) (line : List GoString) : Int :=
  width indent tabWidth + (line.map fun item => width item tabWidth).sum +
    2 * ((line.length : Int) - 1)

/-- The greedy rule of the specification with the current line `cur`: the next
item joins the current line exactly when
`W + 2 + visualLen(item) + 1 <= maxLen`, otherwise it starts a new line. -/
def greedyFrom (indent : GoString) (maxLen tabWidth : Int) :
    List GoString → List GoString → List (List GoString)
  | cur, [] => [cur]
  | cur, item :: rest =>
    if lineWidth indent tabWidth cur + 2 + width item tabWidth + 1 ≤ maxLen then
      greedyFrom indent maxLen tabWidth (cur ++ [item]) rest
    else
      cur :: greedyFrom indent maxLen tabWidth [item] rest

/-- The lines of the specification's greedy packer, each as the list of its items:
the first item starts the first line. -/
def greedyGroups (indent : GoString) (maxLen tabWidth : Int) :
    List GoString → List (List GoString)
  | [] => []
  | item :: rest => greedyFrom indent maxLen tabWidth [item] rest

/-- The greedy rule with the sum `W + 2 + visualLen(item) + 1` taken as the Go `int`
it is in the program, that is, reduced into the range `-2^63 .. 2^63 - 1`: the next
item joins the current line `cur` exactly when the reduced sum is at most `maxLen`. -/
def wrappedGreedyFrom (indent : GoString) (maxLen tabWidth : Int) :
    List GoString → List GoString → List (List GoString)
  | cur, [] => [cur]
  | cur, item :: rest =>
    if wrapInt (lineWidth indent tabWidth cur + 2 + width item tabWidth + 1) ≤ maxLen then
      wrappedGreedyFrom indent maxLen tabWidth (cur ++ [item]) rest
    else
      cur :: wrappedGreedyFrom indent maxLen tabWidth [item] rest

/-- The lines of the greedy rule in Go's `int` arithmetic, each as the list of its
items: the first item starts the first line. -/
def wrappedGreedyGroups (indent : GoString) (maxLen tabWidth : Int) :
    List GoString → List (List GoString)
  | [] => []
  | item :: rest => wrappedGreedyFrom indent maxLen tabWidth [item] rest

/-- The text from the start of the line that holds offset `off` up to `off`: the
longest newline-free run of characters that ends just before `off`. -/
def lineBefore (src : GoString) (off : Int) : GoString :=
  ((src.take off.toNat).reverse.takeWhile fun c => c ≠ '\n').reverse

/-- The character at offset `off` (a space when there is none). -/
def charAt (src : GoString) (off : Int) : Char := src.getD off.toNat ' '

/-- The file set of a single parsed file: `go/token` gives the first file of a
new set the base 1, so a position is the offset plus one. -/
def singleFile : FileSet := { Position := fun p => { Offset := p - 1 } }

/-- The 23 items `"100"`, ..., `"122"` of `TestCallExpr_WrapIfLong`. -/
def items100to122 : List GoString :=
  (List.range 23).map fun i => (Nat.repr (100 + i)).toList

/-- A way of cutting `items` into consecutive non-empty groups in which every group
of two or more items satisfies
`visualLen(indent) + sum of visualLen(item) + 2*(k-1) + 1 <= maxLen`. -/
def IsGrouping (indent : GoString) (maxLen tabWidth : Int) (items : List GoString)
    (groups : List (List GoString)) : Prop :=
  groups.flatten = items ∧ (∀ group ∈ groups, group ≠ []) ∧
    ∀ group ∈ groups, 2 ≤ group.length → lineWidth indent tabWidth group + 1 ≤ maxLen

instance (indent : GoString) (maxLen tabWidth : Int) (items : List GoString)
    (groups : List (List GoString)) : Decidable (IsGrouping indent maxLen tabWidth items groups) := by
  unfold IsGrouping
  infer_instance

/-- The four characters `normalizeWhitespace` treats as white space. -/
def isBlank (r : Char) : Bool := r = '\n' ∨ r = '\r' ∨ r = '\t' ∨ r = ' '

/-- The text in which every maximal run of spaces, tabs, newlines and carriage
returns has become a single space: at a white-space character one space is written
and the rest of its run is skipped; any other character is kept. -/
def collapseRuns : GoString → GoString
  | [] => []
  | c :: rest =>
    if isBlank c then ' ' :: collapseRuns (rest.dropWhile isBlank)
    else c :: collapseRuns rest
termination_by s => s.length
decreasing_by
  · have := (List.dropWhile_suffix (l := rest) isBlank).length_le
    simp only [List.length_cons]
    omega
  · simp

/-- The invariant of the loop of `normalizeWhitespace` on (builder, `inSpace`): the
builder holds no tab, carriage return or newline and no two adjacent spaces, and
`inSpace` is set whenever the builder ends with a space. -/
def NormInv (st : GoString × Bool) : Prop :=
  '\t' ∉ st.1 ∧ '\r' ∉ st.1 ∧ st.1.Chain' (fun a b => ¬ (a = ' ' ∧ b = ' ')) ∧
    (st.1.getLast? = some ' ' → st.2 = true)

instance (st : GoString × Bool) : Decidable (NormInv st) := by
  unfold NormInv
  infer_instance

/-- The line of `src` that contains offset `off`: from just after the last newline
before `off` (or from offset 0) up to the next newline at or after `off`. -/
def lineOf (src : GoString) (off : Int) : GoString :=
  lineBefore src off ++ (src.drop off.toNat).takeWhile fun c => c ≠ '\n'

/-- The text `orig[0:hi]` in which the span from the opening to the closing
delimiter of every listed construct is replaced by the text `repl` gives for it, all
text outside the spans being kept; the constructs are listed from right to left and
lie before `hi`. -/
def replaceSpans (fset : FileSet) (repl : wrappable → GoString) (orig : GoString) :
    Nat → List wrappable → GoString
  | hi, [] => orig.take hi
  | hi, n :: rest =>
    replaceSpans fset repl orig (fset.Position n.openPos).Offset.toNat rest ++ repl n ++
      (orig.take hi).drop ((fset.Position n.closePos).Offset.toNat + 1)

/-- A formatted file in which the call `f` has the call `g` as its argument, `g`
being laid out over three lines, followed by the statement `foo()`. -/
def nestedCalls : GoString :=
  "package main\n\nfunc h() \x7b\n\tf(g(\n\t\t1,\n\t))\n\tfoo()\n\x7d\n".toList

/-- The buffer `nestedCalls` after the inner call `g` has been collapsed. -/
def nestedCallsInnerDone : GoString :=
  "package main\n\nfunc h() \x7b\n\tf(g(1))\n\tfoo()\n\x7d\n".toList

/-- The buffer the wrap pass produces from `nestedCalls`; it is not Go any more. -/
def nestedCallsSpliced : GoString :=
  "package main\n\nfunc h() \x7b\n\tf(g(1)) foo()\n\x7d\n".toList

/-- The construct of the call `f(...)` in `nestedCalls`: parentheses at offsets 27
and 38, one argument at offsets 28 to 38. -/
def nestedOuter : wrappable := ⟨28, 39, [29], [39]⟩

/-- The construct of the call `g(...)` in `nestedCalls`: parentheses at offsets 29
and 37, one argument at offsets 33 to 34. -/
def nestedInner : wrappable := ⟨30, 38, [34], [35]⟩

/-- What `format.Source` does on the texts of the example: `nestedCalls` is
already in canonical form and comes back unchanged; any other text, in particular
`nestedCallsSpliced` with its two statements on one line, is reported as a
syntax error. -/
def formatOnExample (s : GoString) : GoString × Option String :=
  if s = nestedCalls then (s, none) else ([], some "expected semicolon, found foo")

/-- What `parser.ParseFile` and `collectWrappables` give on the texts of the
example: for `nestedCalls` the two calls with arguments, in document order, with
the positions of a single-file set. -/
def discoverOnExample (s : GoString) : Except String (FileSet × List wrappable) :=
  if s = nestedCalls then Except.ok (singleFile, [nestedOuter, nestedInner])
  else Except.error "expected semicolon, found foo"

/-- A formatted text with two calls, `f` and `g`, one after the other, each laid
out over three lines. -/
def twoCalls : GoString := "\tf(\n\t\t1,\n\t)\n\tg(\n\t\t2,\n\t)\n".toList

/-- The construct of the call `f(...)` in `twoCalls`: parentheses at offsets 2 and
10, one argument at offsets 6 to 7. -/
def twoCallsFirst : wrappable := ⟨3, 11, [7], [8]⟩

/-- The construct of the call `g(...)` in `twoCalls`: parentheses at offsets 14 and
22, one argument at offsets 18 to 19. -/
def twoCallsSecond : wrappable := ⟨15, 23, [19], [20]⟩

/-- What `parser.ParseFile` and `collectWrappables` give on `twoCalls`: the two
calls in document order, `f` before `g`, with the positions of a single-file set. -/
def discoverTwoCalls (s : GoString) : Except String (FileSet × List wrappable) :=
  if s = twoCalls then Except.ok (singleFile, [twoCallsFirst, twoCallsSecond])
  else Except.error "not the example"

/-- The text `processNode` puts in place of the span of each call of `twoCalls`. -/
def twoCallsRepl (n : wrappable) : GoString :=
  if n.openPos = 15 then "(2)".toList else "(1)".toList

/-! ## Lemmas -/

theorem wrapInt_range (x : Int) :
    -9223372036854775808 ≤ wrapInt x ∧ wrapInt x < 9223372036854775808 := by
  unfold wrapInt; omega

theorem wrapInt_of_range (x : Int) (h0 : -9223372036854775808 ≤ x)
    (h1 : x < 9223372036854775808) : wrapInt x = x := by
  unfold wrapInt; omega

theorem wrapInt_add_left (a b : Int) : wrapInt (wrapInt a + b) = wrapInt (a + b) := by
  unfold wrapInt; omega

theorem wrapInt_add_right (a b : Int) : wrapInt (a + wrapInt b) = wrapInt (a + b) := by
  unfold wrapInt; omega

theorem wrapInt_add_mul (a k : Int) :
    wrapInt (a + k * 18446744073709551616) = wrapInt a := by
  unfold wrapInt; omega

theorem wrapInt_eq_add_mul (x : Int) : ∃ k : Int, wrapInt x = x + k * 18446744073709551616 := by
  refine ⟨-((x + 9223372036854775808) / 18446744073709551616), ?_⟩
  unfold wrapInt; omega

theorem foldlM_visualStep (tw : Int) (h : tw ≠ 0) (s : GoString) (c : Int) :
    s.foldlM (visualStep tw) c = some (visualCol s tw c) := by
  induction s generalizing c with
  | nil => rfl
  | cons a s ih =>
    simp only [List.foldlM_cons, visualCol, List.foldl_cons]
    have : visualStep tw c a = some (colStep tw c a) := by
      unfold visualStep colStep goDiv
      split_ifs <;> simp
    rw [this]
    simpa [visualCol] using ih _

theorem visualLen_eq (s : GoString) (tw : Int) (h : tw ≠ 0) :
    visualLen s tw = some (visualCol s tw 0) :=
  foldlM_visualStep tw h s 0

theorem width_eq (s : GoString) (tw : Int) (h : tw ≠ 0) : width s tw = visualCol s tw 0 := by
  simp [width, visualLen_eq s tw h]

theorem visualCol_append (a b : GoString) (tw c : Int) :
    visualCol (a ++ b) tw c = visualCol b tw (visualCol a tw c) := by
  simp [visualCol, List.foldl_append]

theorem colStep_range (tw c : Int) (ch : Char) :
    -9223372036854775808 ≤ colStep tw c ch ∧ colStep tw c ch < 9223372036854775808 := by
  unfold colStep
  split_ifs
  · exact wrapInt_range _
  · exact wrapInt_range _

theorem visualCol_range (s : GoString) (tw c : Int)
    (hc : -9223372036854775808 ≤ c ∧ c < 9223372036854775808) :
    -9223372036854775808 ≤ visualCol s tw c ∧ visualCol s tw c < 9223372036854775808 := by
  induction s generalizing c with
  | nil => simpa [visualCol] using hc
  | cons a s ih =>
    have := ih (colStep tw c a) (colStep_range tw c a)
    simpa [visualCol] using this

theorem visualStep_range (tw c v : Int) (ch : Char) (h : visualStep tw c ch = some v) :
    -9223372036854775808 ≤ v ∧ v < 9223372036854775808 := by
  unfold visualStep at h
  split_ifs at h
  · cases hq : goDiv c tw with
    | none => simp [hq] at h
    | some q =>
      rw [hq] at h
      simp only [Option.some_bind, Option.some.injEq] at h
      rw [← h]; exact wrapInt_range _
  · simp only [Option.some.injEq] at h
    rw [← h]; exact wrapInt_range _

theorem foldlM_visualStep_range (tw : Int) (s : GoString) :
    ∀ c v : Int, (-9223372036854775808 ≤ c ∧ c < 9223372036854775808) →
      s.foldlM (visualStep tw) c = some v →
      -9223372036854775808 ≤ v ∧ v < 9223372036854775808 := by
  induction s with
  | nil =>
    intro c v hc h
    simp only [List.foldlM_nil, Option.pure_def, Option.some.injEq] at h
    rw [← h]; exact hc
  | cons a s ih =>
    intro c v _ h
    rw [List.foldlM_cons] at h
    cases hs : visualStep tw c a with
    | none => simp [hs] at h
    | some c' =>
      rw [hs] at h
      simp only [Option.bind_eq_bind, Option.some_bind] at h
      exact ih c' v (visualStep_range tw c c' a hs) h

theorem width_range (s : GoString) (tw : Int) :
    -9223372036854775808 ≤ width s tw ∧ width s tw < 9223372036854775808 := by
  unfold width
  cases h : visualLen s tw with
  | none => simp
  | some v =>
    simp only [Option.getD_some]
    exact foldlM_visualStep_range tw s 0 v (by omega) h

theorem visualCol_notab (s : GoString) (tw : Int) (c : Int)
    (hc : -9223372036854775808 ≤ c ∧ c < 9223372036854775808) (hs : '\t' ∉ s) :
    visualCol s tw c = wrapInt (c + s.length) := by
  induction s generalizing c with
  | nil => simp [visualCol, wrapInt_of_range c hc.1 hc.2]
  | cons a s ih =>
    simp only [List.mem_cons, not_or] at hs
    have hstep : colStep tw c a = wrapInt (c + 1) := by
      unfold colStep
      rw [if_neg (fun h => hs.1 h.symm)]
    have h2 := ih (colStep tw c a) (colStep_range tw c a) hs.2
    simp only [visualCol, List.foldl_cons, List.length_cons] at *
    rw [h2, hstep, wrapInt_add_left]
    push_cast
    congr 1
    omega

theorem lineWidth_append (indent : GoString) (tw : Int) (cur : List GoString) (item : GoString) :
    lineWidth indent tw (cur ++ [item]) = lineWidth indent tw cur + 2 + width item tw := by
  unfold lineWidth
  simp only [List.map_append, List.sum_append, List.length_append, List.map_cons, List.map_nil,
    List.sum_cons, List.sum_nil, List.length_cons, List.length_nil]
  push_cast
  ring

theorem lineWidth_singleton (indent : GoString) (tw : Int) (item : GoString) :
    lineWidth indent tw [item] = width indent tw + width item tw := by
  simp [lineWidth]

theorem normalizeStep_no_newline (st : GoString × Bool) (r : Char) (h : '\n' ∉ st.1) :
    '\n' ∉ (normalizeStep st r).1 := by
  unfold normalizeStep
  split_ifs with h1 h2
  · simp [h]
  · exact h
  · simp only [not_or] at h1
    simp only [List.mem_append, List.mem_singleton, not_or]
    exact ⟨h, fun e => h1.1 e.symm⟩

theorem foldl_normalizeStep_no_newline (s : GoString) (st : GoString × Bool) (h : '\n' ∉ st.1) :
    '\n' ∉ (s.foldl normalizeStep st).1 := by
  induction s generalizing st with
  | nil => exact h
  | cons a s ih => exact ih _ (normalizeStep_no_newline st a h)

theorem normalizeWhitespace_no_newline (s : GoString) : '\n' ∉ normalizeWhitespace s := by
  unfold normalizeWhitespace
  by_cases h : '\n' ∈ s
  · rw [if_neg (not_not.mpr h)]
    exact foldl_normalizeStep_no_newline s _ (List.not_mem_nil _)
  · rw [if_pos h]
    exact h

theorem normalizeWhitespace_of_no_newline (s : GoString) (h : '\n' ∉ s) :
    normalizeWhitespace s = s := by
  unfold normalizeWhitespace
  rw [if_pos h]

theorem extractItemsLoop_no_newline (src : GoString) (fset : FileSet) (ps : List Pos) :
    ∀ (es : List Pos) (acc r : List GoString), (∀ a ∈ acc, '\n' ∉ a) →
      extractItemsLoop src fset ps es acc = some r → ∀ a ∈ r, '\n' ∉ a := by
  induction ps with
  | nil =>
    intro es acc r hacc h
    simp only [extractItemsLoop, Option.some.injEq] at h
    subst h; exact hacc
  | cons p ps ih =>
    intro es acc r hacc h
    cases es with
    | nil => simp [extractItemsLoop] at h
    | cons e es =>
      simp only [extractItemsLoop] at h
      split_ifs at h with hg
      · exact ih es acc r hacc h
      · cases hs : slice src (fset.Position p).Offset (fset.Position e).Offset with
        | none => simp [hs] at h
        | some raw =>
          rw [hs] at h
          simp only [Option.some_bind] at h
          refine ih es _ r ?_ h
          intro a ha
          rcases List.mem_append.mp ha with ha | ha
          · exact hacc a ha
          · rw [List.mem_singleton.mp ha]
            exact normalizeWhitespace_no_newline _

theorem extractItems_no_newline (src : GoString) (fset : FileSet) (n : wrappable)
    (items : List GoString) (h : extractItems src fset n = some items) :
    ∀ a ∈ items, '\n' ∉ a :=
  extractItemsLoop_no_newline src fset n.items n.itemEnds [] items (by simp) h

theorem index_eq (src : GoString) (i : Int) (h0 : 0 ≤ i) (h1 : i < len src) :
    index src i = some (charAt src i) := by
  unfold index charAt
  rw [if_pos ⟨h0, h1⟩]
  have : i.toNat < src.length := by
    unfold len at h1; omega
  simp [List.getD, List.getElem?_eq_getElem this]

theorem findLineStartLoop_eq (src : GoString) (k : Nat) (hk : k ≤ src.length) :
    ∃ j : Nat, j ≤ k ∧ findLineStartLoop src k = some (j : Int) ∧
      (src.take k).drop j = lineBefore src k := by
  induction k with
  | zero => exact ⟨0, le_refl _, rfl, by simp [lineBefore]⟩
  | succ k ih =>
    obtain ⟨j, hj, hl, hd⟩ := ih (by omega)
    have hlt : k < src.length := by omega
    have hidx : index src (k : Int) = some src[k] := by
      unfold index len
      rw [if_pos ⟨by omega, by exact_mod_cast hlt⟩]
      simp [List.getElem?_eq_getElem hlt]
    have htake : src.take (k + 1) = src.take k ++ [src[k]] := by
      rw [List.take_succ, List.getElem?_eq_getElem hlt]; rfl
    have hlb : lineBefore src ((k + 1 : Nat) : Int) =
        if src[k] = '\n' then [] else lineBefore src (k : Int) ++ [src[k]] := by
      unfold lineBefore
      simp only [Int.toNat_ofNat]
      rw [htake, List.reverse_append, List.reverse_singleton, List.singleton_append,
        List.takeWhile_cons]
      split_ifs with h1 h2 h2
      · simp at h1; exact absurd h2 h1
      · simp
      · rfl
      · simp at h1; exact absurd h1 h2
    simp only [findLineStartLoop, hidx, Option.some_bind]
    by_cases hc : src[k] = '\n'
    · refine ⟨k + 1, le_refl _, ?_, ?_⟩
      · rw [if_pos hc]; push_cast; rfl
      · rw [hlb, if_pos hc]
        simp
    · refine ⟨j, by omega, ?_, ?_⟩
      · rw [if_neg hc]; exact hl
      · rw [hlb, if_neg hc, htake, List.drop_append_of_le_length (by simp; omega)]
        rw [hd]

theorem slice_upto (src : GoString) (o : Int) (h0 : 0 ≤ o) (h1 : o ≤ len src) :
    slice src 0 o = some (src.take o.toNat) := by
  unfold slice
  rw [if_pos ⟨le_refl _, h0, h1⟩]
  simp

theorem slice_from (src : GoString) (c : Int) (h0 : 0 ≤ c) (h1 : c ≤ len src) :
    slice src c (len src) = some (src.drop c.toNat) := by
  unfold slice
  rw [if_pos ⟨h0, h1, le_refl _⟩]
  simp [len]

theorem findLineStart_slice (src : GoString) (o : Int) (h0 : 0 ≤ o) (h1 : o ≤ len src) :
    ∃ ls, findLineStart src o = some ls ∧ slice src ls o = some (lineBefore src o) := by
  have hk : o.toNat ≤ src.length := by unfold len at h1; omega
  obtain ⟨j, hj, hl, hd⟩ := findLineStartLoop_eq src o.toNat hk
  refine ⟨(j : Int), hl, ?_⟩
  unfold slice
  rw [if_pos ⟨by omega, by omega, h1⟩]
  have : ((o.toNat : Nat) : Int) = o := Int.toNat_of_nonneg h0
  rw [this] at hd
  simp only [Int.toNat_ofNat]
  rw [hd]

theorem any_newline_false (items : List GoString) (h : ∀ a ∈ items, '\n' ∉ a) :
    (items.any fun item => decide ('\n' ∈ item)) = false := by
  rw [List.any_eq_false]
  intro a ha
  simpa using h a ha

theorem visualLen_eq_width (s : GoString) (tw : Int) (h : (visualLen s tw).isSome) :
    visualLen s tw = some (width s tw) := by
  obtain ⟨w, hw⟩ := Option.isSome_iff_exists.mp h
  simp [width, hw]

theorem visualLen_isSome (s : GoString) (tw : Int) (h : tw ≠ 0) : (visualLen s tw).isSome := by
  simp [visualLen_eq s tw h]

theorem packStep_eq (indent : GoString) (maxLen tw : Int) (st : PackState)
    (item : GoString) (hm : (visualLen item tw).isSome) (hcur : st.currentLineItems ≠ [])
    (hvis : st.currentVisLen = wrapInt (lineWidth indent tw st.currentLineItems)) :
    packStep indent (width indent tw) maxLen tw st item =
      some (if wrapInt (lineWidth indent tw st.currentLineItems + 2 + width item tw + 1) ≤ maxLen
        then
          { st with currentLineItems := st.currentLineItems ++ [item],
                    currentVisLen := wrapInt (lineWidth indent tw (st.currentLineItems ++ [item])) }
        else
          { lines := st.lines ++ [renderLine indent st.currentLineItems],
            currentLineItems := [item],
            currentVisLen := wrapInt (lineWidth indent tw [item]) }) := by
  have hw := visualLen_eq_width item tw hm
  have hl : st.currentLineItems.length ≠ 0 := by
    simpa [List.length_eq_zero] using hcur
  have hnew : wrapInt (wrapInt (wrapInt (lineWidth indent tw st.currentLineItems) + 2) +
      width item tw) = wrapInt (lineWidth indent tw st.currentLineItems + 2 + width item tw) := by
    unfold wrapInt; omega
  have htest : wrapInt (wrapInt (lineWidth indent tw st.currentLineItems + 2 + width item tw) + 1) =
      wrapInt (lineWidth indent tw st.currentLineItems + 2 + width item tw + 1) :=
    wrapInt_add_left _ _
  unfold packStep
  rw [hw]
  simp only [Option.some_bind, if_neg hl, hvis, hnew, htest]
  split_ifs
  · rw [lineWidth_append]
  · rw [lineWidth_singleton]; rfl

theorem pack_loop (indent : GoString) (maxLen tw : Int) (rest : List GoString) :
    ∀ st : PackState, (∀ it ∈ rest, (visualLen it tw).isSome) → st.currentLineItems ≠ [] →
      st.currentVisLen = wrapInt (lineWidth indent tw st.currentLineItems) →
      ∃ st', rest.foldlM (packStep indent (width indent tw) maxLen tw) st = some st' ∧
        st'.currentLineItems ≠ [] ∧
        st'.lines ++ [renderLine indent st'.currentLineItems] =
          st.lines ++ (wrappedGreedyFrom indent maxLen tw st.currentLineItems rest).map
            (renderLine indent) := by
  induction rest with
  | nil =>
    intro st _ hcur _
    exact ⟨st, rfl, hcur, by simp [wrappedGreedyFrom]⟩
  | cons item rest ih =>
    intro st hm hcur hvis
    have hm1 := hm item (List.mem_cons_self _ _)
    have hm2 : ∀ it ∈ rest, (visualLen it tw).isSome :=
      fun it hit => hm it (List.mem_cons_of_mem _ hit)
    rw [List.foldlM_cons, packStep_eq indent maxLen tw st item hm1 hcur hvis]
    simp only [Option.bind_eq_bind, Option.some_bind, wrappedGreedyFrom]
    split_ifs with hfit
    · obtain ⟨st', h1, h2, h3⟩ := ih
        { st with currentLineItems := st.currentLineItems ++ [item],
                  currentVisLen := wrapInt (lineWidth indent tw (st.currentLineItems ++ [item])) }
        hm2 (by simp) rfl
      exact ⟨st', h1, h2, h3⟩
    · obtain ⟨st', h1, h2, h3⟩ := ih
        { lines := st.lines ++ [renderLine indent st.currentLineItems],
          currentLineItems := [item],
          currentVisLen := wrapInt (lineWidth indent tw [item]) }
        hm2 (by simp) rfl
      refine ⟨st', h1, h2, ?_⟩
      rw [h3]
      simp

theorem packItemsLines_eq_of_isSome (items : List GoString) (indent : GoString)
    (maxLen tw : Int) (hind : (visualLen indent tw).isSome)
    (hm : ∀ it ∈ items, (visualLen it tw).isSome) :
    packItemsLines items indent maxLen tw =
      some ((wrappedGreedyGroups indent maxLen tw items).map (renderLine indent)) := by
  have hw := visualLen_eq_width indent tw hind
  unfold packItemsLines
  rw [hw]
  simp only [Option.some_bind]
  cases items with
  | nil => simp [wrappedGreedyGroups]
  | cons item rest =>
    have hi := visualLen_eq_width item tw (hm item (List.mem_cons_self _ _))
    rw [List.foldlM_cons]
    have hs : packStep indent (width indent tw) maxLen tw
        { lines := [], currentLineItems := [], currentVisLen := width indent tw } item =
        some { lines := [], currentLineItems := [item],
               currentVisLen := wrapInt (lineWidth indent tw [item]) } := by
      unfold packStep
      rw [hi, lineWidth_singleton]
      simp
    rw [hs]
    simp only [Option.bind_eq_bind, Option.some_bind]
    obtain ⟨st', h1, h2, h3⟩ := pack_loop indent maxLen tw rest
      { lines := [], currentLineItems := [item],
        currentVisLen := wrapInt (lineWidth indent tw [item]) }
      (fun it hit => hm it (List.mem_cons_of_mem _ hit)) (by simp) rfl
    rw [h1]
    have hl : st'.currentLineItems.length > 0 := List.length_pos.mpr h2
    simp only [Option.some_bind, if_pos hl]
    simp only [List.nil_append] at h3
    rw [wrappedGreedyGroups, ← h3]
    rfl

theorem packItemsLines_eq (items : List GoString) (indent : GoString) (maxLen tw : Int)
    (h : tw ≠ 0) :
    packItemsLines items indent maxLen tw =
      some ((wrappedGreedyGroups indent maxLen tw items).map (renderLine indent)) :=
  packItemsLines_eq_of_isSome items indent maxLen tw (visualLen_isSome indent tw h)
    (fun it _ => visualLen_isSome it tw h)

theorem packStep_isSome (indent : GoString) (iw maxLen tw : Int) (st st' : PackState)
    (item : GoString) (h : packStep indent iw maxLen tw st item = some st') :
    (visualLen item tw).isSome := by
  unfold packStep at h
  cases hv : visualLen item tw with
  | none => simp [hv] at h
  | some w => rfl

theorem foldlM_packStep_isSome (indent : GoString) (iw maxLen tw : Int) (items : List GoString) :
    ∀ st st' : PackState, items.foldlM (packStep indent iw maxLen tw) st = some st' →
      ∀ it ∈ items, (visualLen it tw).isSome := by
  induction items with
  | nil => intro _ _ _ it hit; simp at hit
  | cons item rest ih =>
    intro st st' h it hit
    rw [List.foldlM_cons] at h
    cases hs : packStep indent iw maxLen tw st item with
    | none => simp [hs] at h
    | some st1 =>
      rw [hs] at h
      simp only [Option.bind_eq_bind, Option.some_bind] at h
      rcases List.mem_cons.mp hit with rfl | hit
      · exact packStep_isSome indent iw maxLen tw st st1 _ hs
      · exact ih st1 st' h it hit

theorem packItemsLines_isSome (items : List GoString) (indent : GoString) (maxLen tw : Int)
    (lines : List GoString) (h : packItemsLines items indent maxLen tw = some lines) :
    (visualLen indent tw).isSome ∧ ∀ it ∈ items, (visualLen it tw).isSome := by
  unfold packItemsLines at h
  cases hv : visualLen indent tw with
  | none => simp [hv] at h
  | some w =>
    rw [hv] at h
    simp only [Option.some_bind] at h
    refine ⟨rfl, ?_⟩
    cases hf : items.foldlM (packStep indent w maxLen tw)
        { lines := [], currentLineItems := [], currentVisLen := w } with
    | none => simp [hf] at h
    | some st' => exact foldlM_packStep_isSome indent w maxLen tw items _ st' hf

/-- Whenever the packer returns, its lines are the lines of the greedy rule in Go's
`int` arithmetic. -/
theorem packItemsLines_some (items : List GoString) (indent : GoString) (maxLen tw : Int)
    (lines : List GoString) (h : packItemsLines items indent maxLen tw = some lines) :
    lines = (wrappedGreedyGroups indent maxLen tw items).map (renderLine indent) := by
  obtain ⟨h1, h2⟩ := packItemsLines_isSome items indent maxLen tw lines h
  rw [packItemsLines_eq_of_isSome items indent maxLen tw h1 h2] at h
  exact (Option.some.inj h).symm

theorem packItems_eq (items : List GoString) (indent : GoString) (maxLen tw : Int)
    (h : tw ≠ 0) :
    packItems items indent maxLen tw =
      some (Join ((wrappedGreedyGroups indent maxLen tw items).map (renderLine indent))
          "\n".toList ++
        "\n".toList) := by
  unfold packItems
  rw [packItemsLines_eq items indent maxLen tw h]
  rfl

theorem processNode_eq (src : GoString) (fset : FileSet) (n : wrappable) (maxLen tw : Int)
    (items : List GoString) (htw : tw ≠ 0)
    (ho0 : 0 ≤ (fset.Position n.openPos).Offset)
    (ho1 : (fset.Position n.openPos).Offset < len src)
    (hc0 : 0 ≤ (fset.Position n.closePos).Offset)
    (hc1 : (fset.Position n.closePos).Offset < len src)
    (hitems : extractItems src fset n = some items) (hne : items ≠ []) :
    processNode src fset n maxLen tw =
      some (if visualCol (lineBefore src (fset.Position n.openPos).Offset ++
              ([charAt src (fset.Position n.openPos).Offset] ++ Join items ", ".toList ++
                [charAt src (fset.Position n.closePos).Offset])) tw 0 ≤ maxLen then
          src.take (fset.Position n.openPos).Offset.toNat ++
            ([charAt src (fset.Position n.openPos).Offset] ++ Join items ", ".toList ++
              [charAt src (fset.Position n.closePos).Offset]) ++
            src.drop ((fset.Position n.closePos).Offset + 1).toNat
        else
          src.take (fset.Position n.openPos).Offset.toNat ++
            ([charAt src (fset.Position n.openPos).Offset] ++ "\n".toList ++
              (Join ((wrappedGreedyGroups
                  (extractIndent (lineBefore src (fset.Position n.openPos).Offset) ++ "\t".toList)
                  maxLen tw items).map
                (renderLine
                  (extractIndent (lineBefore src (fset.Position n.openPos).Offset) ++ "\t".toList)))
                "\n".toList ++ "\n".toList) ++
              extractIndent (lineBefore src (fset.Position n.openPos).Offset) ++
              [charAt src (fset.Position n.closePos).Offset]) ++
            src.drop ((fset.Position n.closePos).Offset + 1).toNat) := by
  obtain ⟨ls, hls, hsl⟩ := findLineStart_slice src _ ho0 (le_of_lt ho1)
  have hguard : ¬ ((fset.Position n.openPos).Offset < 0 ∨ (fset.Position n.closePos).Offset < 0 ∨
      (fset.Position n.openPos).Offset ≥ len src ∨ (fset.Position n.closePos).Offset ≥ len src) := by
    omega
  have hlen : ¬ items.length = 0 := by
    simpa [List.length_eq_zero] using hne
  unfold processNode
  simp only [if_neg hguard, index_eq src _ ho0 ho1, index_eq src _ hc0 hc1, hitems,
    Option.some_bind, if_neg hlen, hls, hsl,
    any_newline_false items (extractItems_no_newline src fset n items hitems),
    visualLen_eq _ tw htw, slice_upto src _ ho0 (le_of_lt ho1),
    slice_from src _ (show (0 : Int) ≤ (fset.Position n.closePos).Offset + 1 by omega)
      (show (fset.Position n.closePos).Offset + 1 ≤ len src by omega),
    packItems_eq _ _ maxLen tw htw]
  split_ifs <;> simp_all

theorem index_some (src : GoString) (i : Int) (ch : Char) (h : index src i = some ch) :
    0 ≤ i ∧ i < len src ∧ charAt src i = ch := by
  unfold index at h
  split_ifs at h with hr
  refine ⟨hr.1, hr.2, ?_⟩
  have := index_eq src i hr.1 hr.2
  unfold index at this
  rw [if_pos hr, h] at this
  exact (Option.some.inj this).symm

/-- C1 (width threshold exactness of `processNode`).  For a construct whose
delimiter offsets are in range and which has at least one extracted item, with
`singleLine` the opening delimiter, the items joined by `", "` and the closing
delimiter, and `fullLine` the text of the opening delimiter's line before it
followed by `singleLine`: at `visualLen(fullLine) = maxLen` the construct is
collapsed, the result being `src[:open] + singleLine + src[close+1:]`; at
`visualLen(fullLine) = maxLen + 1` it is expanded, the replacement being the opening
delimiter, a newline, the packed lines, the closing indentation and the closing
delimiter. -/
theorem processNode_width_threshold (src : GoString) (fset : FileSet) (n : wrappable)
    (maxLen tabWidth : Int) (openOff closeOff : Int) (openChar closeChar : Char)
    (items : List GoString) (singleLine fullLine : GoString)
    (hopen : (fset.Position n.openPos).Offset = openOff)
    (hclose : (fset.Position n.closePos).Offset = closeOff)
    (hoc : index src openOff = some openChar) (hcc : index src closeOff = some closeChar)
    (hitems : extractItems src fset n = some items) (hne : items ≠ [])
    (htw : 1 ≤ tabWidth)
    (hsingle : singleLine = [openChar] ++ Join items ", ".toList ++ [closeChar])
    (hfull : fullLine = lineBefore src openOff ++ singleLine) :
    (visualLen fullLine tabWidth = some maxLen →
      processNode src fset n maxLen tabWidth =
        some (src.take openOff.toNat ++ singleLine ++ src.drop (closeOff + 1).toNat)) ∧
    (visualLen fullLine tabWidth = some (maxLen + 1) →
      ∃ packed,
        packItems items (extractIndent (lineBefore src openOff) ++ "\t".toList) maxLen tabWidth =
          some packed ∧
        processNode src fset n maxLen tabWidth =
          some (src.take openOff.toNat ++
            ([openChar] ++ "\n".toList ++ packed ++ extractIndent (lineBefore src openOff) ++
              [closeChar]) ++
            src.drop (closeOff + 1).toNat)) := by
  obtain ⟨ho0, ho1, hoch⟩ := index_some src openOff openChar hoc
  obtain ⟨hc0, hc1, hcch⟩ := index_some src closeOff closeChar hcc
  have htw0 : tabWidth ≠ 0 := by omega
  subst hopen hclose
  have key := processNode_eq src fset n maxLen tabWidth items htw0 ho0 ho1 hc0 hc1 hitems hne
  rw [hoch, hcch, ← hsingle, ← hfull] at key
  rw [visualLen_eq fullLine tabWidth htw0]
  constructor
  · intro hv
    have hle : visualCol fullLine tabWidth 0 ≤ maxLen := le_of_eq (Option.some.inj hv)
    rw [key, if_pos hle]
  · intro hv
    have hgt : ¬ visualCol fullLine tabWidth 0 ≤ maxLen := by
      have := Option.some.inj hv
      omega
    refine ⟨_, packItems_eq items _ maxLen tabWidth htw0, ?_⟩
    rw [key, if_neg hgt]

/-- C1 at `f(1, 2)`, whose single-line rendering is 7 columns wide: collapsed at
width 7, expanded at width 6. -/
theorem processNode_width_threshold_witness :
    processNode "f(1, 2)".toList singleFile ⟨2, 7, [3, 6], [4, 7]⟩ 7 4 =
      some "f(1, 2)".toList ∧
    ∃ packed, packItems ["1".toList, "2".toList] "\t".toList 6 4 = some packed ∧
      processNode "f(1, 2)".toList singleFile ⟨2, 7, [3, 6], [4, 7]⟩ 6 4 =
        some ("f".toList ++ ("(".toList ++ "\n".toList ++ packed ++ [] ++ ")".toList) ++ []) :=
  ⟨(processNode_width_threshold "f(1, 2)".toList singleFile ⟨2, 7, [3, 6], [4, 7]⟩ 7 4 1 6
      '(' ')' ["1".toList, "2".toList] "(1, 2)".toList "f(1, 2)".toList
      (by decide) (by decide) (by decide) (by decide) (by decide) (by decide) (by decide)
      (by decide) (by decide)).1 (by decide),
   (processNode_width_threshold "f(1, 2)".toList singleFile ⟨2, 7, [3, 6], [4, 7]⟩ 6 4 1 6
      '(' ')' ["1".toList, "2".toList] "(1, 2)".toList "f(1, 2)".toList
      (by decide) (by decide) (by decide) (by decide) (by decide) (by decide) (by decide)
      (by decide) (by decide)).2 (by decide)⟩

theorem Join_newline_append (lines : List GoString) (h : lines ≠ []) :
    Join lines "\n".toList ++ "\n".toList = (lines.map fun l => l ++ "\n".toList).flatten := by
  induction lines with
  | nil => exact absurd rfl h
  | cons a rest ih =>
    cases rest with
    | nil => simp [Join]
    | cons b rest =>
      have := ih (by simp)
      simp only [Join, List.map_cons, List.flatten_cons, List.append_assoc] at this ⊢
      rw [this]

theorem wrappedGreedyFrom_ne_nil (indent : GoString) (maxLen tw : Int) (rest : List GoString) :
    ∀ cur, wrappedGreedyFrom indent maxLen tw cur rest ≠ [] := by
  induction rest with
  | nil => intro cur; simp [wrappedGreedyFrom]
  | cons item rest ih =>
    intro cur
    simp only [wrappedGreedyFrom]
    split_ifs
    · exact ih _
    · simp

theorem wrappedGreedyGroups_ne_nil (indent : GoString) (maxLen tw : Int)
    (items : List GoString) (h : items ≠ []) : wrappedGreedyGroups indent maxLen tw items ≠ [] := by
  cases items with
  | nil => exact absurd rfl h
  | cons item rest => exact wrappedGreedyFrom_ne_nil indent maxLen tw rest [item]

theorem sum_width_nonneg (g : List GoString) (tw : Int) (h : ∀ it ∈ g, 0 ≤ width it tw) :
    0 ≤ (g.map fun item => width item tw).sum := by
  apply List.sum_nonneg
  intro x hx
  obtain ⟨it, hit, rfl⟩ := List.mem_map.mp hx
  exact h it hit

theorem lineWidth_le_append_left (indent : GoString) (tw : Int) (a c : List GoString)
    (h : ∀ it ∈ a, 0 ≤ width it tw) : lineWidth indent tw c ≤ lineWidth indent tw (a ++ c) := by
  unfold lineWidth
  have := sum_width_nonneg a tw h
  simp only [List.map_append, List.sum_append, List.length_append]
  push_cast
  omega

theorem lineWidth_le_append_right (indent : GoString) (tw : Int) (a c : List GoString)
    (h : ∀ it ∈ c, 0 ≤ width it tw) : lineWidth indent tw a ≤ lineWidth indent tw (a ++ c) := by
  unfold lineWidth
  have := sum_width_nonneg c tw h
  simp only [List.map_append, List.sum_append, List.length_append]
  push_cast
  omega

theorem lineWidth_lower (indent : GoString) (tw : Int) (g : List GoString) (hg : g ≠ [])
    (h : ∀ it ∈ g, 0 ≤ width it tw) : -9223372036854775808 ≤ lineWidth indent tw g := by
  unfold lineWidth
  have h1 := sum_width_nonneg g tw h
  have h2 := (width_range indent tw).1
  have h3 : 1 ≤ (g.length : Int) := by
    have := List.length_pos.mpr hg
    omega
  omega

/-- While no sum leaves the range of `int`, the greedy rule in Go's arithmetic is
the greedy rule of the specification. -/
theorem wrappedGreedyFrom_eq (indent : GoString) (maxLen tw : Int) (rest : List GoString) :
    ∀ cur, (∀ it ∈ cur ++ rest, 0 ≤ width it tw) →
      lineWidth indent tw (cur ++ rest) + 1 < 9223372036854775808 →
      wrappedGreedyFrom indent maxLen tw cur rest = greedyFrom indent maxLen tw cur rest := by
  induction rest with
  | nil => intro cur _ _; simp [wrappedGreedyFrom, greedyFrom]
  | cons item rest ih =>
    intro cur hw hb
    have hw1 : ∀ it ∈ cur ++ [item], 0 ≤ width it tw := fun it hit =>
      hw it (by
        rcases List.mem_append.mp hit with h | h
        · exact List.mem_append_left _ h
        · exact List.mem_append_right _ (by simp at h; simp [h]))
    have hw2 : ∀ it ∈ rest, 0 ≤ width it tw := fun it hit =>
      hw it (List.mem_append_right _ (List.mem_cons_of_mem _ hit))
    have hw3 : ∀ it ∈ cur, 0 ≤ width it tw := fun it hit => hw it (List.mem_append_left _ hit)
    have hsplit : cur ++ item :: rest = (cur ++ [item]) ++ rest := by simp
    have hup := lineWidth_le_append_right indent tw (cur ++ [item]) rest hw2
    rw [← hsplit, lineWidth_append] at hup
    have hlo := lineWidth_lower indent tw (cur ++ [item]) (by simp) hw1
    rw [lineWidth_append] at hlo
    have hid : wrapInt (lineWidth indent tw cur + 2 + width item tw + 1) =
        lineWidth indent tw cur + 2 + width item tw + 1 :=
      wrapInt_of_range _ (by omega) (by omega)
    simp only [wrappedGreedyFrom, greedyFrom, hid]
    split_ifs
    · exact ih (cur ++ [item]) (by rw [← hsplit]; exact hw) (by rw [← hsplit]; exact hb)
    · congr 1
      have hle := lineWidth_le_append_left indent tw cur (item :: rest) hw3
      exact ih [item]
        (fun it hit => hw it (List.mem_append_right _ (by simpa using hit)))
        (by simp only [List.singleton_append]; omega)

theorem wrappedGreedyGroups_eq (indent : GoString) (maxLen tw : Int) (items : List GoString)
    (hw : ∀ it ∈ items, 0 ≤ width it tw)
    (hb : lineWidth indent tw items + 1 < 9223372036854775808) :
    wrappedGreedyGroups indent maxLen tw items = greedyGroups indent maxLen tw items := by
  cases items with
  | nil => rfl
  | cons item rest =>
    exact wrappedGreedyFrom_eq indent maxLen tw rest [item] (by simpa using hw) (by simpa using hb)

/-- C2 as stated fails: with the indent `"\t"`, the items `"\t"` and `"b"`, width
120 and tab width `2^62`, the line holding the first item has
`W = 2^62 + 2^62 = 2^63`, so `W + 2 + visualLen("b") + 1 > 120` and the rule starts a
new line; the program's `W` has wrapped round to `-2^63` and it keeps `"b"` on the
line. -/
theorem packItems_greedy_rule_counterexample :
    visualLen "\t".toList 4611686018427387904 = some 4611686018427387904 ∧
    visualLen "b".toList 4611686018427387904 = some 1 ∧
    ¬ ((4611686018427387904 + 4611686018427387904 + 2 + 1 + 1 : Int) ≤ 120) ∧
    greedyGroups "\t".toList 120 4611686018427387904 ["\t".toList, "b".toList] =
      [["\t".toList], ["b".toList]] ∧
    packItemsLines ["\t".toList, "b".toList] "\t".toList 120 4611686018427387904 =
      some ["\t\t, b,".toList] := by
  decide

/-- C2, amended (greedy packing rule of `packItems`).  For a non-empty item list
and a tab width of at least 1, the lines `packItems` builds are the lines of the
greedy rule in which the sum `W + 2 + visualLen(item) + 1` is the 64-bit `int` of
the program (`wrappedGreedyGroups`: the first item starts the first line; a later
item joins the current line exactly when the sum, reduced into the range
`-2^63 .. 2^63 - 1`, is at most `maxLen`; otherwise it starts a new line), each
rendered as indent, items joined by `", "`, and a comma, and the result is these
lines, each followed by a newline.  When every item has a width of at least 0 and
the indent, all the items and their separators together stay below `2^63` columns,
no sum is reduced and the lines are those of the rule as the specification states
it (`greedyGroups`), with `W` the indent width plus the widths of the items on the
line plus 2 per separator. -/
theorem packItems_greedy_rule (items : List GoString) (indent : GoString)
    (maxLen tabWidth : Int) (hne : items ≠ []) (htw : 1 ≤ tabWidth) :
    (packItemsLines items indent maxLen tabWidth =
        some ((wrappedGreedyGroups indent maxLen tabWidth items).map (renderLine indent)) ∧
      packItems items indent maxLen tabWidth =
        some (((wrappedGreedyGroups indent maxLen tabWidth items).map
          fun group => renderLine indent group ++ "\n".toList).flatten)) ∧
    ((∀ item ∈ items, 0 ≤ width item tabWidth) →
      lineWidth indent tabWidth items + 1 < 9223372036854775808 →
      packItemsLines items indent maxLen tabWidth =
        some ((greedyGroups indent maxLen tabWidth items).map (renderLine indent)) ∧
      packItems items indent maxLen tabWidth =
        some (((greedyGroups indent maxLen tabWidth items).map
          fun group => renderLine indent group ++ "\n".toList).flatten)) := by
  have htw0 : tabWidth ≠ 0 := by omega
  have key : packItemsLines items indent maxLen tabWidth =
        some ((wrappedGreedyGroups indent maxLen tabWidth items).map (renderLine indent)) ∧
      packItems items indent maxLen tabWidth =
        some (((wrappedGreedyGroups indent maxLen tabWidth items).map
          fun group => renderLine indent group ++ "\n".toList).flatten) := by
    refine ⟨packItemsLines_eq items indent maxLen tabWidth htw0, ?_⟩
    rw [packItems_eq items indent maxLen tabWidth htw0, Join_newline_append]
    · simp [List.map_map, Function.comp_def]
    · simpa using wrappedGreedyGroups_ne_nil indent maxLen tabWidth items hne
  refine ⟨key, ?_⟩
  intro hw hb
  rw [← wrappedGreedyGroups_eq indent maxLen tabWidth items hw hb]
  exact key

set_option maxRecDepth 100000 in
/-- C2, amended, on the 23 items `"100"`..`"122"` with indent `"\t\t"`, width 120 and
tab width 4: exactly two lines, the first holding `100` to `121`, the second `122`,
and they are the lines of the rule as the specification states it. -/
theorem packItems_greedy_rule_witness :
    (packItemsLines items100to122 "\t\t".toList 120 4 =
      some ["\t\t100, 101, 102, 103, 104, 105, 106, 107, 108, 109, 110, 111, 112, 113, 114, 115, 116, 117, 118, 119, 120, 121,".toList,
        "\t\t122,".toList] ∧
    packItems items100to122 "\t\t".toList 120 4 =
      some "\t\t100, 101, 102, 103, 104, 105, 106, 107, 108, 109, 110, 111, 112, 113, 114, 115, 116, 117, 118, 119, 120, 121,\n\t\t122,\n".toList) ∧
    (packItemsLines items100to122 "\t\t".toList 120 4 =
        some ((greedyGroups "\t\t".toList 120 4 items100to122).map (renderLine "\t\t".toList)) ∧
      packItems items100to122 "\t\t".toList 120 4 =
        some (((greedyGroups "\t\t".toList 120 4 items100to122).map
          fun group => renderLine "\t\t".toList group ++ "\n".toList).flatten)) :=
  ⟨⟨(packItems_greedy_rule items100to122 "\t\t".toList 120 4 (by decide) (by decide)).1.1.trans
      (by decide),
    (packItems_greedy_rule items100to122 "\t\t".toList 120 4 (by decide) (by decide)).1.2.trans
      (by decide)⟩,
   (packItems_greedy_rule items100to122 "\t\t".toList 120 4 (by decide) (by decide)).2
      (by decide) (by decide)⟩

theorem wrappedGreedyFrom_flatten (indent : GoString) (maxLen tw : Int) (rest : List GoString) :
    ∀ cur, (wrappedGreedyFrom indent maxLen tw cur rest).flatten = cur ++ rest := by
  induction rest with
  | nil => intro cur; simp [wrappedGreedyFrom]
  | cons item rest ih =>
    intro cur
    simp only [wrappedGreedyFrom]
    split_ifs
    · rw [ih]; simp
    · rw [List.flatten_cons, ih]; simp

theorem wrappedGreedyGroups_flatten (indent : GoString) (maxLen tw : Int)
    (items : List GoString) : (wrappedGreedyGroups indent maxLen tw items).flatten = items := by
  cases items with
  | nil => rfl
  | cons item rest =>
    simpa [wrappedGreedyGroups] using wrappedGreedyFrom_flatten indent maxLen tw rest [item]

theorem wrappedGreedyFrom_group_ne_nil (indent : GoString) (maxLen tw : Int)
    (rest : List GoString) :
    ∀ cur, cur ≠ [] → ∀ g ∈ wrappedGreedyFrom indent maxLen tw cur rest, g ≠ [] := by
  induction rest with
  | nil =>
    intro cur hcur g hg
    simp only [wrappedGreedyFrom, List.mem_singleton] at hg
    rw [hg]; exact hcur
  | cons item rest ih =>
    intro cur hcur g hg
    simp only [wrappedGreedyFrom] at hg
    split_ifs at hg
    · exact ih _ (by simp) g hg
    · rcases List.mem_cons.mp hg with rfl | hg
      · exact hcur
      · exact ih _ (by simp) g hg

theorem wrappedGreedyGroups_group_ne_nil (indent : GoString) (maxLen tw : Int)
    (items : List GoString) : ∀ g ∈ wrappedGreedyGroups indent maxLen tw items, g ≠ [] := by
  cases items with
  | nil => intro g hg; simp [wrappedGreedyGroups] at hg
  | cons item rest => exact wrappedGreedyFrom_group_ne_nil indent maxLen tw rest [item] (by simp)

theorem mem_of_mem_wrappedGreedyGroups (indent : GoString) (maxLen tw : Int)
    (items : List GoString) (g : List GoString)
    (hg : g ∈ wrappedGreedyGroups indent maxLen tw items) : ∀ it ∈ g, it ∈ items := by
  intro it hit
  have : it ∈ (wrappedGreedyGroups indent maxLen tw items).flatten :=
    List.mem_flatten.mpr ⟨g, hg, hit⟩
  rwa [wrappedGreedyGroups_flatten] at this

theorem Join_no_mem (c : Char) (sep : GoString) (hsep : c ∉ sep) (g : List GoString)
    (h : ∀ it ∈ g, c ∉ it) : c ∉ Join g sep := by
  induction g with
  | nil => simp [Join]
  | cons a rest ih =>
    cases rest with
    | nil => simpa [Join] using h a (by simp)
    | cons b rest =>
      have h1 := h a (by simp)
      have h2 := ih (fun it hit => h it (List.mem_cons_of_mem _ hit))
      simp only [Join, List.mem_append, not_or]
      exact ⟨⟨h1, hsep⟩, h2⟩

theorem packItems_some (items : List GoString) (indent : GoString) (maxLen tw : Int)
    (out : GoString) (h : packItems items indent maxLen tw = some out) :
    packItemsLines items indent maxLen tw =
        some ((wrappedGreedyGroups indent maxLen tw items).map (renderLine indent)) ∧
      out = Join ((wrappedGreedyGroups indent maxLen tw items).map (renderLine indent))
          "\n".toList ++
        "\n".toList := by
  unfold packItems at h
  cases hl : packItemsLines items indent maxLen tw with
  | none => simp [hl] at h
  | some lines =>
    rw [hl] at h
    simp only [Option.some_bind, Option.some.injEq] at h
    have := packItemsLines_some items indent maxLen tw lines hl
    subst this
    exact ⟨rfl, h.symm⟩

/-- C3 (trailing comma invariant of `packItems`).  For a non-empty list of
newline-free items and any indent, `packItems` returns whenever the tab width is
not zero, and whatever it returns is the lines it built, each followed by a
newline; every one of these lines, the last included, is the indent, then a
newline-free body, then a comma. -/
theorem packItems_trailing_comma (items : List GoString) (indent : GoString)
    (maxLen tabWidth : Int) (hne : items ≠ []) (hnl : ∀ item ∈ items, '\n' ∉ item) :
    (tabWidth ≠ 0 → (packItems items indent maxLen tabWidth).isSome) ∧
    ∀ out, packItems items indent maxLen tabWidth = some out →
      ∃ lines, lines ≠ [] ∧ packItemsLines items indent maxLen tabWidth = some lines ∧
        out = (lines.map fun line => line ++ "\n".toList).flatten ∧
        ∀ line ∈ lines, ∃ body, '\n' ∉ body ∧ line = indent ++ body ++ ",".toList := by
  constructor
  · intro htw
    rw [packItems_eq items indent maxLen tabWidth htw]
    rfl
  · intro out hout
    obtain ⟨h1, h2⟩ := packItems_some items indent maxLen tabWidth out hout
    have hgne := wrappedGreedyGroups_ne_nil indent maxLen tabWidth items hne
    refine ⟨_, by simpa using hgne, h1, ?_, ?_⟩
    · rw [h2, Join_newline_append _ (by simpa using hgne)]
    · intro line hline
      obtain ⟨g, hg, rfl⟩ := List.mem_map.mp hline
      refine ⟨Join g ", ".toList, ?_, rfl⟩
      apply Join_no_mem _ _ (by decide)
      intro it hit
      exact hnl it (mem_of_mem_wrappedGreedyGroups indent maxLen tabWidth items g hg it hit)

/-- C3 on the items `1`, `22`, `333` with indent `"\t"`, width 10 and tab width 4:
the two lines `"\t1, 22,"` and `"\t333,"`. -/
theorem packItems_trailing_comma_witness :
    (packItems ["1".toList, "22".toList, "333".toList] "\t".toList 10 4).isSome ∧
    ∃ lines, lines ≠ [] ∧
      packItemsLines ["1".toList, "22".toList, "333".toList] "\t".toList 10 4 = some lines ∧
      "\t1, 22,\n\t333,\n".toList = (lines.map fun line => line ++ "\n".toList).flatten ∧
      ∀ line ∈ lines, ∃ body, '\n' ∉ body ∧ line = "\t".toList ++ body ++ ",".toList :=
  ⟨(packItems_trailing_comma ["1".toList, "22".toList, "333".toList] "\t".toList 10 4
      (by decide) (by decide)).1 (by decide),
   (packItems_trailing_comma ["1".toList, "22".toList, "333".toList] "\t".toList 10 4
      (by decide) (by decide)).2 "\t1, 22,\n\t333,\n".toList (by decide)⟩

/-- C4 (order preservation of `packItems`).  For every item list, `packItems`
returns whenever the tab width is not zero, and whatever it returns is made of
lines that are, top to bottom, the indent, a non-empty group of items joined by
`", "`, and a comma, where the groups read in order are exactly the input
sequence: every item is the entry of one line, in its place. -/
theorem packItems_order_preserved (items : List GoString) (indent : GoString)
    (maxLen tabWidth : Int) :
    (tabWidth ≠ 0 → (packItems items indent maxLen tabWidth).isSome) ∧
    ∀ out, packItems items indent maxLen tabWidth = some out →
      ∃ groups : List (List GoString),
        groups.flatten = items ∧ (∀ group ∈ groups, group ≠ []) ∧
        packItemsLines items indent maxLen tabWidth =
          some (groups.map fun group => indent ++ Join group ", ".toList ++ ",".toList) ∧
        out = Join (groups.map fun group => indent ++ Join group ", ".toList ++ ",".toList)
          "\n".toList ++ "\n".toList := by
  constructor
  · intro htw
    rw [packItems_eq items indent maxLen tabWidth htw]
    rfl
  · intro out hout
    obtain ⟨h1, h2⟩ := packItems_some items indent maxLen tabWidth out hout
    exact ⟨wrappedGreedyGroups indent maxLen tabWidth items,
      wrappedGreedyGroups_flatten indent maxLen tabWidth items,
      wrappedGreedyGroups_group_ne_nil indent maxLen tabWidth items, h1, h2⟩

/-- C4 on the items `1`, `22`, `333` with indent `"\t"`, width 10 and tab width 4:
the groups are `1, 22` and `333`. -/
theorem packItems_order_preserved_witness :
    ∃ groups : List (List GoString),
      groups.flatten = ["1".toList, "22".toList, "333".toList] ∧
      (∀ group ∈ groups, group ≠ []) ∧
      packItemsLines ["1".toList, "22".toList, "333".toList] "\t".toList 10 4 =
        some (groups.map fun group => "\t".toList ++ Join group ", ".toList ++ ",".toList) ∧
      "\t1, 22,\n\t333,\n".toList =
        Join (groups.map fun group => "\t".toList ++ Join group ", ".toList ++ ",".toList)
          "\n".toList ++ "\n".toList :=
  (packItems_order_preserved ["1".toList, "22".toList, "333".toList] "\t".toList 10 4).2
    "\t1, 22,\n\t333,\n".toList (by decide)

theorem wrappedGreedyFrom_fits (indent : GoString) (maxLen tw : Int) (rest : List GoString) :
    ∀ cur, (2 ≤ cur.length → wrapInt (lineWidth indent tw cur + 1) ≤ maxLen) →
      ∀ g ∈ wrappedGreedyFrom indent maxLen tw cur rest, 2 ≤ g.length →
        wrapInt (lineWidth indent tw g + 1) ≤ maxLen := by
  induction rest with
  | nil =>
    intro cur hcur g hg
    simp only [wrappedGreedyFrom, List.mem_singleton] at hg
    rw [hg]; exact hcur
  | cons item rest ih =>
    intro cur hcur g hg
    simp only [wrappedGreedyFrom] at hg
    split_ifs at hg with hfit
    · refine ih _ ?_ g hg
      intro _
      rw [lineWidth_append]
      exact hfit
    · rcases List.mem_cons.mp hg with rfl | hg
      · exact hcur
      · exact ih _ (by simp) g hg

theorem wrappedGreedyGroups_fits (indent : GoString) (maxLen tw : Int)
    (items : List GoString) :
    ∀ g ∈ wrappedGreedyGroups indent maxLen tw items, 2 ≤ g.length →
      wrapInt (lineWidth indent tw g + 1) ≤ maxLen := by
  cases items with
  | nil => intro g hg; simp [wrappedGreedyGroups] at hg
  | cons item rest => exact wrappedGreedyFrom_fits indent maxLen tw rest [item] (by simp)

theorem width_notab (s : GoString) (tw : Int) (htw : tw ≠ 0) (hs : '\t' ∉ s) :
    width s tw = wrapInt s.length := by
  rw [width_eq s tw htw, visualCol_notab s tw 0 (by omega) hs]; simp

theorem Join_length (g : List GoString) (hg : g ≠ []) :
    ((Join g ", ".toList).length : Int) =
      (g.map fun item => (item.length : Int)).sum + 2 * ((g.length : Int) - 1) := by
  induction g with
  | nil => exact absurd rfl hg
  | cons a rest ih =>
    cases rest with
    | nil => simp [Join]
    | cons b rest =>
      have := ih (by simp)
      simp only [Join, List.length_append, List.map_cons, List.sum_cons, List.length_cons,
        Nat.cast_add, Nat.cast_one] at this ⊢
      rw [this]
      have : (", ".toList.length : Int) = 2 := by decide
      rw [this]
      ring

theorem sum_width_notab (tw : Int) (htw : tw ≠ 0) (g : List GoString)
    (h : ∀ it ∈ g, '\t' ∉ it) :
    ∃ k : Int, (g.map fun item => width item tw).sum =
      (g.map fun item => (item.length : Int)).sum + k * 18446744073709551616 := by
  induction g with
  | nil => exact ⟨0, by simp⟩
  | cons a rest ih =>
    obtain ⟨k, hk⟩ := ih (fun it hit => h it (List.mem_cons_of_mem _ hit))
    obtain ⟨j, hj⟩ := wrapInt_eq_add_mul (a.length : Int)
    have ha := width_notab a tw htw (h a (by simp))
    refine ⟨j + k, ?_⟩
    simp only [List.map_cons, List.sum_cons]
    rw [hk, ha, hj]
    ring

theorem renderLine_width_notab (indent : GoString) (tw : Int) (htw : tw ≠ 0)
    (g : List GoString) (hg : g ≠ []) (h : ∀ it ∈ g, '\t' ∉ it) :
    visualLen (renderLine indent g) tw = some (wrapInt (lineWidth indent tw g + 1)) := by
  rw [visualLen_eq _ tw htw]
  congr 1
  unfold renderLine lineWidth
  have hnt : '\t' ∉ Join g ", ".toList ++ ",".toList := by
    simp only [List.mem_append, not_or]
    exact ⟨Join_no_mem _ _ (by decide) g h, by decide⟩
  rw [List.append_assoc, visualCol_append,
    visualCol_notab _ tw _ (visualCol_range indent tw 0 (by omega)) hnt, ← width_eq indent tw htw,
    List.length_append]
  push_cast
  rw [Join_length g hg]
  obtain ⟨k, hk⟩ := sum_width_notab tw htw g h
  rw [hk]
  have : (",".toList.length : Int) = 1 := by decide
  rw [this]
  generalize width indent tw = wi
  generalize (g.map fun item => (item.length : Int)).sum = L
  generalize (g.length : Int) = n
  unfold wrapInt
  omega

/-- C5 as stated fails: the items `"a"` and `"b\t"` with indent `"\t"`, width 12 and
tab width 4 are packed on one line, `"\ta, b\t,"`, whose visual width is 13. -/
theorem packItems_width_budget_counterexample :
    packItemsLines ["a".toList, "b\t".toList] "\t".toList 12 4 = some ["\ta, b\t,".toList] ∧
    visualLen "\ta, b\t,".toList 4 = some 13 ∧
    ¬ ((13 : Int) ≤ 12) := by
  decide

/-- C5, amended (width budget of packed lines).  For items that contain no tab
character, any indent, any `maxLen` and a tab width of at least 1, the lines of
`packItems` are the renderings of consecutive groups of the items, and every line
that holds two or more items has `visualLen(line) <= maxLen`, the line being
measured whole: only a line that holds a single item can exceed `maxLen`. -/
theorem packItems_width_budget (items : List GoString) (indent : GoString)
    (maxLen tabWidth : Int) (htw : 1 ≤ tabWidth) (hnotab : ∀ item ∈ items, '\t' ∉ item) :
    ∃ groups : List (List GoString),
      groups.flatten = items ∧ (∀ group ∈ groups, group ≠ []) ∧
      packItemsLines items indent maxLen tabWidth =
        some (groups.map fun group => indent ++ Join group ", ".toList ++ ",".toList) ∧
      ∀ group ∈ groups, 2 ≤ group.length →
        ∃ w, visualLen (indent ++ Join group ", ".toList ++ ",".toList) tabWidth = some w ∧
          w ≤ maxLen := by
  have htw0 : tabWidth ≠ 0 := by omega
  refine ⟨wrappedGreedyGroups indent maxLen tabWidth items,
    wrappedGreedyGroups_flatten indent maxLen tabWidth items,
    wrappedGreedyGroups_group_ne_nil indent maxLen tabWidth items,
    packItemsLines_eq items indent maxLen tabWidth htw0, ?_⟩
  intro g hg h2
  refine ⟨wrapInt (lineWidth indent tabWidth g + 1), ?_,
    wrappedGreedyGroups_fits indent maxLen tabWidth items g hg h2⟩
  exact renderLine_width_notab indent tabWidth htw0 g
    (wrappedGreedyGroups_group_ne_nil indent maxLen tabWidth items g hg)
    (fun it hit =>
      hnotab it (mem_of_mem_wrappedGreedyGroups indent maxLen tabWidth items g hg it hit))

/-- C5, amended, on the items `1`, `22`, `333` with indent `"\t"`, width 10 and tab
width 4. -/
theorem packItems_width_budget_witness :
    ∃ groups : List (List GoString),
      groups.flatten = ["1".toList, "22".toList, "333".toList] ∧
      (∀ group ∈ groups, group ≠ []) ∧
      packItemsLines ["1".toList, "22".toList, "333".toList] "\t".toList 10 4 =
        some (groups.map fun group => "\t".toList ++ Join group ", ".toList ++ ",".toList) ∧
      ∀ group ∈ groups, 2 ≤ group.length →
        ∃ w, visualLen ("\t".toList ++ Join group ", ".toList ++ ",".toList) 4 = some w ∧
          w ≤ 10 :=
  packItems_width_budget ["1".toList, "22".toList, "333".toList] "\t".toList 10 4
    (by decide) (by decide)

theorem wrapInt_le_of_le (x m : Int) (hx : -9223372036854775808 ≤ x) (h : x ≤ m) :
    wrapInt x ≤ m := by
  unfold wrapInt; omega

theorem grouping_suffix (indent : GoString) (maxLen tw : Int) (gs : List (List GoString)) :
    ∀ a b : List GoString, (∀ it ∈ a, 0 ≤ width it tw) →
      IsGrouping indent maxLen tw (a ++ b) gs →
      ∃ hs, IsGrouping indent maxLen tw b hs ∧ hs.length ≤ gs.length := by
  induction gs with
  | nil =>
    intro a b _ h
    have hb : b = [] := by
      have := h.1
      simp only [List.flatten_nil] at this
      exact (List.append_eq_nil.mp this.symm).2
    subst hb
    exact ⟨[], ⟨rfl, by simp, by simp⟩, le_refl _⟩
  | cons g gs ih =>
    intro a b hw h
    obtain ⟨hflat, hne, hfit⟩ := h
    have htail : ∀ l, gs.flatten = l → IsGrouping indent maxLen tw l gs := fun l hl =>
      ⟨hl, fun x hx => hne x (List.mem_cons_of_mem _ hx),
        fun x hx => hfit x (List.mem_cons_of_mem _ hx)⟩
    rw [List.flatten_cons] at hflat
    rcases List.append_eq_append_iff.mp hflat with ⟨a', ha, hrest⟩ | ⟨c', hg, hb⟩
    · have hwa' : ∀ it ∈ a', 0 ≤ width it tw := fun it hit =>
        hw it (by rw [ha]; exact List.mem_append_right _ hit)
      obtain ⟨hs, hhs, hlen⟩ := ih a' b hwa' (htail _ hrest)
      exact ⟨hs, hhs, by simp only [List.length_cons]; omega⟩
    · by_cases hc : c' = []
      · subst hc
        simp only [List.nil_append] at hb
        exact ⟨gs, htail b hb.symm, by simp⟩
      · refine ⟨c' :: gs, ⟨by rw [List.flatten_cons, hb], ?_, ?_⟩, le_refl _⟩
        · intro x hx
          rcases List.mem_cons.mp hx with rfl | hx
          · exact hc
          · exact hne x (List.mem_cons_of_mem _ hx)
        · intro x hx h2
          rcases List.mem_cons.mp hx with rfl | hx
          · have hg2 : 2 ≤ g.length := by
              rw [hg, List.length_append]; omega
            have h1 := hfit g (List.mem_cons_self _ _) hg2
            have h3 := lineWidth_le_append_left indent tw a x hw
            rw [← hg] at h3
            omega
          · exact hfit x (List.mem_cons_of_mem _ hx) h2

theorem wrappedGreedyFrom_length_le (indent : GoString) (maxLen tw : Int)
    (rest : List GoString) :
    ∀ (cur : List GoString) (gs : List (List GoString)), cur ≠ [] →
      (∀ it ∈ cur ++ rest, 0 ≤ width it tw) →
      IsGrouping indent maxLen tw (cur ++ rest) gs →
      (wrappedGreedyFrom indent maxLen tw cur rest).length ≤ gs.length := by
  induction rest with
  | nil =>
    intro cur gs hcur _ h
    simp only [wrappedGreedyFrom, List.length_singleton]
    cases gs with
    | nil =>
      have := h.1
      simp only [List.flatten_nil, List.append_nil] at this
      exact absurd this.symm hcur
    | cons g gs => simp
  | cons x rest ih =>
    intro cur gs hcur hw h
    have hwcur : ∀ it ∈ cur, 0 ≤ width it tw := fun it hit => hw it (List.mem_append_left _ hit)
    have hwx : ∀ it ∈ cur ++ [x], 0 ≤ width it tw := fun it hit =>
      hw it (by
        rcases List.mem_append.mp hit with h | h
        · exact List.mem_append_left _ h
        · exact List.mem_append_right _ (by simp at h; simp [h]))
    have hwrest : ∀ it ∈ [x] ++ rest, 0 ≤ width it tw := fun it hit =>
      hw it (List.mem_append_right _ (by simpa using hit))
    simp only [wrappedGreedyFrom]
    split_ifs with hfit
    · apply ih (cur ++ [x]) gs (by simp)
      · simpa [List.append_assoc] using hw
      · simpa [IsGrouping, List.append_assoc] using h
    · obtain ⟨hflat, hne, hval⟩ := h
      cases gs with
      | nil =>
        simp only [List.flatten_nil] at hflat
        exact absurd (List.append_eq_nil.mp hflat.symm).1 hcur
      | cons g gs =>
        have htail : ∀ l, gs.flatten = l → IsGrouping indent maxLen tw l gs := fun l hl =>
          ⟨hl, fun y hy => hne y (List.mem_cons_of_mem _ hy),
            fun y hy => hval y (List.mem_cons_of_mem _ hy)⟩
        simp only [List.length_cons, add_le_add_iff_right]
        rw [List.flatten_cons] at hflat
        rcases List.append_eq_append_iff.mp hflat with ⟨a', ha', hrest⟩ | ⟨c', hg, hb⟩
        · have hwa' : ∀ it ∈ a', 0 ≤ width it tw := fun it hit =>
            hwcur it (by rw [ha']; exact List.mem_append_right _ hit)
          obtain ⟨hs, hhs, hlen⟩ := grouping_suffix indent maxLen tw gs a' (x :: rest) hwa'
            (htail _ hrest)
          have := ih [x] hs (by simp) hwrest (by simpa using hhs)
          omega
        · cases c' with
          | nil =>
            simp only [List.nil_append] at hb
            exact ih [x] gs (by simp) hwrest (by simpa using htail _ hb.symm)
          | cons y c' =>
            exfalso
            simp only [List.cons_append, List.cons.injEq] at hb
            obtain ⟨rfl, hb2⟩ := hb
            have hg2 : 2 ≤ g.length := by
              rw [hg, List.length_append, List.length_cons]
              have := List.length_pos.mpr hcur
              omega
            have h1 := hval g (List.mem_cons_self _ _) hg2
            have hwc' : ∀ it ∈ c', 0 ≤ width it tw := fun it hit =>
              hw it (List.mem_append_right _ (List.mem_cons_of_mem _ (by
                rw [hb2]; exact List.mem_append_left _ hit)))
            have h3 := lineWidth_le_append_right indent tw (cur ++ [x]) c' hwc'
            have h4 : cur ++ [x] ++ c' = g := by rw [hg]; simp
            rw [h4, lineWidth_append] at h3
            have hlo := lineWidth_lower indent tw (cur ++ [x]) (by simp) hwx
            rw [lineWidth_append] at hlo
            exact hfit (wrapInt_le_of_le _ _ (by omega) (by omega))

/-- C6 as stated fails: with the indent `"\t"`, width 120 and tab width `2^62`, the
item `` `\t\t` `` has the width `-2^63 + 1`, the column having wrapped round at its
second tab.  `packItems` puts the items `a`, `b` and two such items on three lines,
while the two groups `a, b, lit` and `lit` respect the width rule. -/
theorem packItems_fewest_lines_counterexample :
    visualLen "`\t\t`".toList 4611686018427387904 = some (-9223372036854775807) ∧
    packItemsLines ["a".toList, "b".toList, "`\t\t`".toList, "`\t\t`".toList] "\t".toList 120
        4611686018427387904 =
      some ["\ta,".toList, "\tb, `\t\t`,".toList, "\t`\t\t`,".toList] ∧
    IsGrouping "\t".toList 120 4611686018427387904
      ["a".toList, "b".toList, "`\t\t`".toList, "`\t\t`".toList]
      [["a".toList, "b".toList, "`\t\t`".toList], ["`\t\t`".toList]] ∧
    ¬ (["\ta,".toList, "\tb, `\t\t`,".toList, "\t`\t\t`,".toList].length ≤
      [["a".toList, "b".toList, "`\t\t`".toList], ["`\t\t`".toList]].length) := by
  decide

/-- C6, amended (fewest lines).  For every indent, `maxLen`, tab width of at least 1
and item list in which every item has a width `visualLen(item)` of at least 0 (no
item is so wide that its column count wrapped round to a negative `int`): the lines
of `packItems` are the renderings of consecutive non-empty groups of the items; no
way of cutting the items into groups that respects the width rule has fewer groups
than `packItems` has lines; every line of two or more items whose sum
`visualLen(indent) + sum of visualLen(item) + 2*(k-1) + 1` is below `2^63` respects
the width rule; so when no line reaches `2^63` columns the lines are themselves such
a cutting and their number is the least possible. -/
theorem packItems_fewest_lines (items : List GoString) (indent : GoString)
    (maxLen tabWidth : Int) (htw : 1 ≤ tabWidth)
    (hw : ∀ item ∈ items, 0 ≤ width item tabWidth) :
    ∃ lines groups, packItemsLines items indent maxLen tabWidth = some lines ∧
      lines = (groups.map fun group => indent ++ Join group ", ".toList ++ ",".toList) ∧
      groups.flatten = items ∧ (∀ group ∈ groups, group ≠ []) ∧
      (∀ groups', IsGrouping indent maxLen tabWidth items groups' →
        lines.length ≤ groups'.length) ∧
      (∀ group ∈ groups, 2 ≤ group.length →
        lineWidth indent tabWidth group + 1 < 9223372036854775808 →
        lineWidth indent tabWidth group + 1 ≤ maxLen) ∧
      ((∀ group ∈ groups, 2 ≤ group.length →
          lineWidth indent tabWidth group + 1 < 9223372036854775808) →
        IsGrouping indent maxLen tabWidth items groups) := by
  have hfit : ∀ group ∈ wrappedGreedyGroups indent maxLen tabWidth items, 2 ≤ group.length →
      lineWidth indent tabWidth group + 1 < 9223372036854775808 →
      lineWidth indent tabWidth group + 1 ≤ maxLen := by
    intro g hg h2 hb
    have h1 := wrappedGreedyGroups_fits indent maxLen tabWidth items g hg h2
    have hlo := lineWidth_lower indent tabWidth g
      (wrappedGreedyGroups_group_ne_nil indent maxLen tabWidth items g hg)
      (fun it hit =>
        hw it (mem_of_mem_wrappedGreedyGroups indent maxLen tabWidth items g hg it hit))
    rwa [wrapInt_of_range _ (by omega) hb] at h1
  refine ⟨_, wrappedGreedyGroups indent maxLen tabWidth items,
    packItemsLines_eq items indent maxLen tabWidth (by omega), rfl,
    wrappedGreedyGroups_flatten indent maxLen tabWidth items,
    wrappedGreedyGroups_group_ne_nil indent maxLen tabWidth items, ?_, hfit, ?_⟩
  · intro gs hgs
    rw [List.length_map]
    cases items with
    | nil => simp [wrappedGreedyGroups]
    | cons item rest =>
      exact wrappedGreedyFrom_length_le indent maxLen tabWidth rest [item] gs (by simp)
        (by simpa using hw) (by simpa using hgs)
  · intro hall
    exact ⟨wrappedGreedyGroups_flatten indent maxLen tabWidth items,
      wrappedGreedyGroups_group_ne_nil indent maxLen tabWidth items,
      fun g hg h2 => hfit g hg h2 (hall g hg h2)⟩

/-- C6, amended, on the items `1`, `22`, `333` with indent `"\t"`, width 10 and tab
width 4: two lines, and no admissible grouping has fewer groups. -/
theorem packItems_fewest_lines_witness :
    packItemsLines ["1".toList, "22".toList, "333".toList] "\t".toList 10 4 =
      some ["\t1, 22,".toList, "\t333,".toList] ∧
    ∃ lines groups,
      packItemsLines ["1".toList, "22".toList, "333".toList] "\t".toList 10 4 = some lines ∧
      lines = (groups.map fun group => "\t".toList ++ Join group ", ".toList ++ ",".toList) ∧
      groups.flatten = ["1".toList, "22".toList, "333".toList] ∧
      (∀ group ∈ groups, group ≠ []) ∧
      (∀ groups', IsGrouping "\t".toList 10 4 ["1".toList, "22".toList, "333".toList] groups' →
        lines.length ≤ groups'.length) ∧
      (∀ group ∈ groups, 2 ≤ group.length →
        lineWidth "\t".toList 4 group + 1 < 9223372036854775808 →
        lineWidth "\t".toList 4 group + 1 ≤ 10) ∧
      ((∀ group ∈ groups, 2 ≤ group.length →
          lineWidth "\t".toList 4 group + 1 < 9223372036854775808) →
        IsGrouping "\t".toList 10 4 ["1".toList, "22".toList, "333".toList] groups) :=
  ⟨by decide,
    packItems_fewest_lines ["1".toList, "22".toList, "333".toList] "\t".toList 10 4 (by decide)
      (by decide)⟩

theorem slice_some (src : GoString) (lo hi : Int) (r : GoString)
    (h : slice src lo hi = some r) :
    0 ≤ lo ∧ lo ≤ hi ∧ hi ≤ len src ∧ r = (src.take hi.toNat).drop lo.toNat := by
  unfold slice at h
  split_ifs at h with hr
  exact ⟨hr.1, hr.2.1, hr.2.2, (Option.some.inj h).symm⟩

theorem extractItemsLoop_raw (src : GoString) (fset : FileSet) (ps : List Pos) :
    ∀ (es : List Pos) (raws acc : List GoString), ps.length = es.length →
      List.Forall₂ (fun (pe : Pos × Pos) (raw : GoString) =>
        slice src (fset.Position pe.1).Offset (fset.Position pe.2).Offset = some raw ∧
          TrimSpace raw = raw ∧ '\n' ∉ raw) (ps.zip es) raws →
      extractItemsLoop src fset ps es acc = some (acc ++ raws) := by
  induction ps with
  | nil =>
    intro es raws acc _ h
    simp only [List.zip_nil_left, List.forall₂_nil_left_iff] at h
    subst h
    simp [extractItemsLoop]
  | cons p ps ih =>
    intro es raws acc hlen h
    cases es with
    | nil => simp at hlen
    | cons e es =>
      simp only [List.zip_cons_cons] at h
      cases h with
      | cons hhead htail =>
        rename_i raw raws
        obtain ⟨hs, htrim, hnl⟩ := hhead
        dsimp only at hs
        obtain ⟨h0, h1, h2, _⟩ := slice_some src _ _ raw hs
        have hguard : ¬ ((fset.Position p).Offset < 0 ∨ (fset.Position e).Offset < 0 ∨
            (fset.Position p).Offset > len src ∨ (fset.Position e).Offset > len src) := by
          omega
        simp only [extractItemsLoop, if_neg hguard, hs, Option.some_bind, htrim,
          normalizeWhitespace_of_no_newline raw hnl]
        rw [ih es raws (acc ++ [raw]) (by simpa using hlen) htail]
        simp

theorem split_at_delims (src : GoString) (o c : Nat) (hoc : o < c) (hc : c < src.length) :
    src = src.take o ++ (src.getD o ' ' :: ((src.take c).drop (o + 1) ++
      src.getD c ' ' :: src.drop (c + 1))) := by
  have ho : o < src.length := by omega
  have h1 : src.drop c = src[c] :: src.drop (c + 1) := List.drop_eq_getElem_cons hc
  have h2 : (src.take c).drop o = src[o] :: (src.take c).drop (o + 1) := by
    have hlt : o < (src.take c).length := by simp; omega
    rw [List.drop_eq_getElem_cons hlt]
    simp
  have h3 : (src.take c).take o = src.take o := by
    rw [List.take_take, min_eq_left (le_of_lt hoc)]
  have h4 : src.getD o ' ' = src[o] := by simp [List.getD, List.getElem?_eq_getElem ho]
  have h5 : src.getD c ' ' = src[c] := by simp [List.getD, List.getElem?_eq_getElem hc]
  rw [h4, h5, ← h1]
  conv_lhs => rw [← List.take_append_drop c src, ← List.take_append_drop o (src.take c), h3, h2]
  simp

/-- C7 (collapse round-trip).  Whenever the single-line rendering of a construct
fits, `visualLen(fullLine) <= maxLen`, `processNode` returns
`src[:open] + opening delimiter + items joined by ", " + closing delimiter +
src[close+1:]`, and the text it puts between the delimiters holds no newline: the
line breaks of a construct laid out over several lines are gone. -/
theorem processNode_collapse (src : GoString) (fset : FileSet) (n : wrappable)
    (maxLen tabWidth : Int) (openOff closeOff : Int) (openChar closeChar : Char)
    (items : List GoString) (w : Int)
    (hopen : (fset.Position n.openPos).Offset = openOff)
    (hclose : (fset.Position n.closePos).Offset = closeOff)
    (hoc : index src openOff = some openChar) (hcc : index src closeOff = some closeChar)
    (hitems : extractItems src fset n = some items) (hne : items ≠ [])
    (htw : 1 ≤ tabWidth)
    (hvis : visualLen (lineBefore src openOff ++
      ([openChar] ++ Join items ", ".toList ++ [closeChar])) tabWidth = some w)
    (hfit : w ≤ maxLen) :
    processNode src fset n maxLen tabWidth =
        some (src.take openOff.toNat ++ ([openChar] ++ Join items ", ".toList ++ [closeChar]) ++
          src.drop (closeOff + 1).toNat) ∧
      '\n' ∉ Join items ", ".toList := by
  obtain ⟨ho0, ho1, hoch⟩ := index_some src openOff openChar hoc
  obtain ⟨hc0, hc1, hcch⟩ := index_some src closeOff closeChar hcc
  have htw0 : tabWidth ≠ 0 := by omega
  subst hopen hclose
  have key := processNode_eq src fset n maxLen tabWidth items htw0 ho0 ho1 hc0 hc1 hitems hne
  rw [hoch, hcch] at key
  rw [visualLen_eq _ tabWidth htw0] at hvis
  have hle : visualCol (lineBefore src (fset.Position n.openPos).Offset ++
      ([openChar] ++ Join items ", ".toList ++ [closeChar])) tabWidth 0 ≤ maxLen := by
    rw [Option.some.inj hvis]; exact hfit
  rw [if_pos hle] at key
  exact ⟨key, Join_no_mem _ _ (by decide) items (extractItems_no_newline src fset n items hitems)⟩

/-- C7 on the call of `TestCollapse_MultiLineToSingleIfFits`:
`"\tprintln(\n\t\t1, 2, 3,\n\t)"` at width 120 becomes `"\tprintln(1, 2, 3)"`. -/
theorem processNode_collapse_witness :
    processNode "\tprintln(\n\t\t1, 2, 3,\n\t)".toList singleFile
        ⟨9, 23, [13, 16, 19], [14, 17, 20]⟩ 120 4 = some "\tprintln(1, 2, 3)".toList ∧
      '\n' ∉ Join ["1".toList, "2".toList, "3".toList] ", ".toList :=
  processNode_collapse "\tprintln(\n\t\t1, 2, 3,\n\t)".toList singleFile
    ⟨9, 23, [13, 16, 19], [14, 17, 20]⟩ 120 4 8 22 '(' ')'
    ["1".toList, "2".toList, "3".toList] 20
    (by decide) (by decide) (by decide) (by decide) (by decide) (by decide) (by decide)
    (by decide) (by decide)

/-- C8 (no-op stability).  When the text between the delimiters of a construct is
already its items joined by exactly `", "`, every item's source slice having no
leading or trailing white space and no newline, and the line fits,
`visualLen(fullLine) <= maxLen`, `processNode` returns its input unchanged. -/
theorem processNode_noop (src : GoString) (fset : FileSet) (n : wrappable)
    (maxLen tabWidth : Int) (openOff closeOff : Int) (openChar closeChar : Char)
    (raws : List GoString) (w : Int)
    (hopen : (fset.Position n.openPos).Offset = openOff)
    (hclose : (fset.Position n.closePos).Offset = closeOff)
    (hoc : index src openOff = some openChar) (hcc : index src closeOff = some closeChar)
    (hlen : n.items.length = n.itemEnds.length)
    (hraws : List.Forall₂ (fun (pe : Pos × Pos) (raw : GoString) =>
      slice src (fset.Position pe.1).Offset (fset.Position pe.2).Offset = some raw ∧
        TrimSpace raw = raw ∧ '\n' ∉ raw) (n.items.zip n.itemEnds) raws)
    (hne : raws ≠ [])
    (hbody : slice src (openOff + 1) closeOff = some (Join raws ", ".toList))
    (htw : 1 ≤ tabWidth)
    (hvis : visualLen (lineBefore src openOff ++
      ([openChar] ++ Join raws ", ".toList ++ [closeChar])) tabWidth = some w)
    (hfit : w ≤ maxLen) :
    processNode src fset n maxLen tabWidth = some src := by
  obtain ⟨ho0, ho1, hoch⟩ := index_some src openOff openChar hoc
  obtain ⟨hc0, hc1, hcch⟩ := index_some src closeOff closeChar hcc
  have htw0 : tabWidth ≠ 0 := by omega
  have hitems : extractItems src fset n = some raws := by
    have := extractItemsLoop_raw src fset n.items n.itemEnds raws [] hlen hraws
    simpa [extractItems] using this
  obtain ⟨_, hoc1, _, hb⟩ := slice_some src _ _ _ hbody
  subst hopen hclose
  have key := processNode_eq src fset n maxLen tabWidth raws htw0 ho0 ho1 hc0 hc1 hitems hne
  rw [hoch, hcch] at key
  rw [visualLen_eq _ tabWidth htw0] at hvis
  have hle : visualCol (lineBefore src (fset.Position n.openPos).Offset ++
      ([openChar] ++ Join raws ", ".toList ++ [closeChar])) tabWidth 0 ≤ maxLen := by
    rw [Option.some.inj hvis]; exact hfit
  rw [if_pos hle] at key
  rw [key]
  congr 1
  have hsplit := split_at_delims src (fset.Position n.openPos).Offset.toNat
    (fset.Position n.closePos).Offset.toNat (by omega) (by unfold len at hc1; omega)
  have e1 : ((fset.Position n.openPos).Offset + 1).toNat =
      (fset.Position n.openPos).Offset.toNat + 1 := by omega
  have e2 : ((fset.Position n.closePos).Offset + 1).toNat =
      (fset.Position n.closePos).Offset.toNat + 1 := by omega
  rw [e1] at hb
  rw [e2, hb]
  unfold charAt at hoch hcch
  rw [hoch, hcch] at hsplit
  conv_rhs => rw [hsplit]
  simp

set_option maxRecDepth 100000 in
/-- C8 on the call of `TestCallExpr_NoWrapIfFits`: `"\tprintln(100, 101, 102)"` at
width 120 is returned as it is. -/
theorem processNode_noop_witness :
    processNode "\tprintln(100, 101, 102)".toList singleFile
        ⟨9, 23, [10, 15, 20], [13, 18, 23]⟩ 120 4 =
      some "\tprintln(100, 101, 102)".toList :=
  processNode_noop "\tprintln(100, 101, 102)".toList singleFile
    ⟨9, 23, [10, 15, 20], [13, 18, 23]⟩ 120 4 8 22 '(' ')'
    ["100".toList, "101".toList, "102".toList] 26
    (by decide) (by decide) (by decide) (by decide) (by decide)
    (List.Forall₂.cons (by decide) (List.Forall₂.cons (by decide)
      (List.Forall₂.cons (by decide) List.Forall₂.nil)))
    (by decide) (by decide) (by decide) (by decide) (by decide)

theorem dropWhile_append_of_head (p : Char → Bool) (x : Char) (hx : p x = false)
    (a l : GoString) : (a ++ x :: l).dropWhile p = a.dropWhile p ++ x :: l := by
  induction a with
  | nil => simp [List.dropWhile_cons, hx]
  | cons y a ih =>
    simp only [List.cons_append, List.dropWhile_cons]
    split_ifs
    · exact ih
    · rfl

theorem infix_TrimSpace (raw mid : GoString) (q₁ q₂ : Char)
    (h₁ : isSpace q₁ = false) (h₂ : isSpace q₂ = false)
    (hin : q₁ :: (mid ++ [q₂]) <:+: raw) : q₁ :: (mid ++ [q₂]) <:+: TrimSpace raw := by
  obtain ⟨a, b, rfl⟩ := hin
  unfold TrimSpace
  have e1 : (a ++ q₁ :: (mid ++ [q₂]) ++ b).dropWhile isSpace =
      a.dropWhile isSpace ++ q₁ :: (mid ++ [q₂] ++ b) := by
    rw [← dropWhile_append_of_head isSpace q₁ h₁]; simp
  have e2 : (a.dropWhile isSpace ++ q₁ :: (mid ++ [q₂] ++ b)).reverse =
      b.reverse ++ q₂ :: (mid.reverse ++ q₁ :: (a.dropWhile isSpace).reverse) := by
    simp
  rw [e1, e2, dropWhile_append_of_head isSpace q₂ h₂]
  refine ⟨a.dropWhile isSpace, (b.reverse.dropWhile isSpace).reverse, ?_⟩
  simp

theorem foldl_normalizeStep_extends (s : GoString) :
    ∀ st : GoString × Bool, ∃ z, (s.foldl normalizeStep st).1 = st.1 ++ z := by
  induction s with
  | nil => intro st; exact ⟨[], by simp⟩
  | cons r s ih =>
    intro st
    obtain ⟨z, hz⟩ := ih (normalizeStep st r)
    simp only [List.foldl_cons]
    rw [hz]
    unfold normalizeStep
    split_ifs
    · exact ⟨' ' :: z, by simp⟩
    · exact ⟨z, rfl⟩
    · exact ⟨r :: z, by simp⟩

/-- A text without tab, newline and carriage return and without two adjacent
spaces goes through the loop of `normalizeWhitespace` unchanged, provided `inSpace`
is not set when the text starts with a space. -/
theorem foldl_normalizeStep_single (lit : GoString) :
    ∀ st : GoString × Bool, '\n' ∉ lit → '\r' ∉ lit → '\t' ∉ lit →
      lit.Chain' (fun a b => ¬ (a = ' ' ∧ b = ' ')) →
      (st.2 = true → lit.head? ≠ some ' ') →
      ∃ b, lit.foldl normalizeStep st = (st.1 ++ lit, b) := by
  induction lit with
  | nil => intro st _ _ _ _ _; exact ⟨st.2, by simp⟩
  | cons r lit ih =>
    intro st hn hr ht hch hflag
    simp only [List.mem_cons, not_or] at hn hr ht
    rw [List.chain'_cons'] at hch
    by_cases hsp : r = ' '
    · subst hsp
      have hst : st.2 = false := by
        by_contra hne
        have : st.2 = true := by simpa using hne
        exact hflag this rfl
      have hstep : normalizeStep st ' ' = (st.1 ++ [' '], true) := by
        unfold normalizeStep
        simp [hst]
      obtain ⟨b, hb⟩ := ih (st.1 ++ [' '], true) hn.2 hr.2 ht.2 hch.2
        (fun _ hhead => hch.1 _ (by simpa using hhead) ⟨rfl, rfl⟩)
      exact ⟨b, by
        simp only [List.foldl_cons, hstep, hb, List.append_assoc, List.singleton_append]⟩
    · have hstep : normalizeStep st r = (st.1 ++ [r], false) := by
        unfold normalizeStep
        rw [if_neg (by
          simp only [not_or]
          exact ⟨fun e => hn.1 e.symm, fun e => hr.1 e.symm, fun e => ht.1 e.symm, hsp⟩)]
      obtain ⟨b, hb⟩ := ih (st.1 ++ [r], false) hn.2 hr.2 ht.2 hch.2 (by simp)
      exact ⟨b, by
        simp only [List.foldl_cons, hstep, hb, List.append_assoc, List.singleton_append]⟩

theorem not_blank_of_not_isSpace (c : Char) (h : isSpace c = false) :
    ¬ (c = '\n' ∨ c = '\r' ∨ c = '\t' ∨ c = ' ') := by
  rintro (rfl | rfl | rfl | rfl) <;> exact absurd h (by decide)

theorem normalizeStep_inv (st : GoString × Bool) (r : Char) (h : NormInv st) :
    NormInv (normalizeStep st r) := by
  obtain ⟨h1, h2, h3, h4⟩ := h
  unfold normalizeStep
  by_cases hb : r = '\n' ∨ r = '\r' ∨ r = '\t' ∨ r = ' '
  · rw [if_pos hb]
    by_cases hs : st.2 = true
    · simp only [hs, Bool.not_true, Bool.false_eq_true, if_false]
      exact ⟨h1, h2, h3, h4⟩
    · have hs' : st.2 = false := by simpa using hs
      simp only [hs', Bool.not_false, if_true]
      refine ⟨by simp [h1], by simp [h2], ?_, fun _ => rfl⟩
      rw [List.chain'_append]
      refine ⟨h3, List.chain'_singleton _, ?_⟩
      intro x hx y hy
      simp only [List.head?_cons, Option.mem_def, Option.some.injEq] at hy
      rintro ⟨rfl, _⟩
      exact hs (h4 hx)
  · rw [if_neg hb]
    simp only [not_or] at hb
    refine ⟨?_, ?_, ?_, ?_⟩
    · simp only [List.mem_append, List.mem_singleton, not_or]
      exact ⟨h1, fun e => hb.2.2.1 e.symm⟩
    · simp only [List.mem_append, List.mem_singleton, not_or]
      exact ⟨h2, fun e => hb.2.1 e.symm⟩
    · rw [List.chain'_append]
      refine ⟨h3, List.chain'_singleton _, ?_⟩
      intro x _ y hy
      simp only [List.head?_cons, Option.mem_def, Option.some.injEq] at hy
      subst hy
      exact fun hxy => hb.2.2.2 hxy.2
    · intro hl
      rw [List.getLast?_append_of_ne_nil _ (by simp)] at hl
      simp only [List.getLast?_singleton, Option.some.injEq] at hl
      exact absurd hl hb.2.2.2

theorem foldl_normalizeStep_inv (s : GoString) :
    ∀ st, NormInv st → NormInv (s.foldl normalizeStep st) := by
  induction s with
  | nil => intro st h; exact h
  | cons r s ih => intro st h; exact ih _ (normalizeStep_inv st r h)

/-- The text `normalizeWhitespace` returns for a text with a newline holds no tab,
no carriage return and no two adjacent spaces. -/
theorem normalizeWhitespace_inv (s : GoString) (hnl : '\n' ∈ s) :
    '\t' ∉ normalizeWhitespace s ∧ '\r' ∉ normalizeWhitespace s ∧
      (normalizeWhitespace s).Chain' (fun a b => ¬ (a = ' ' ∧ b = ' ')) := by
  have hinv := foldl_normalizeStep_inv s ([], false)
    ⟨by simp, by simp, List.chain'_nil, by simp⟩
  unfold normalizeWhitespace
  rw [if_neg (not_not.mpr hnl)]
  exact ⟨hinv.1, hinv.2.1, hinv.2.2.1⟩

theorem no_double_space_of_chain (l : GoString)
    (h : l.Chain' (fun a b => ¬ (a = ' ' ∧ b = ' '))) : ¬ ("  ".toList <:+: l) := by
  intro hin
  have h2 : List.Chain' (fun a b => ¬ (a = ' ' ∧ b = ' ')) [' ', ' '] := h.infix hin
  simp at h2

theorem chain_of_no_double_space (l : GoString) (h : ¬ ("  ".toList <:+: l)) :
    l.Chain' (fun a b => ¬ (a = ' ' ∧ b = ' ')) := by
  induction l with
  | nil => exact List.chain'_nil
  | cons x l ih =>
    have hl : ¬ ("  ".toList <:+: l) := fun hin => h (hin.trans (List.suffix_cons x l).isInfix)
    rw [List.chain'_cons']
    refine ⟨?_, ih hl⟩
    intro y hy
    rintro ⟨rfl, rfl⟩
    cases l with
    | nil => simp at hy
    | cons z l =>
      simp only [List.head?_cons, Option.mem_def, Option.some.injEq] at hy
      subst hy
      exact h ⟨[], l, rfl⟩

set_option maxRecDepth 100000 in
/-- C9 fails on the code: in `"\tf(func() {\n\t\tx()\n\t})"` the only argument of the
call spans three lines, yet at width 120 `processNode` collapses the call to
`"\tf(func() { x() })"`; it is expanded only at a width the line does not fit. -/
theorem processNode_multiline_item_collapsed :
    slice "\tf(func() \x7b\n\t\tx()\n\t\x7d)".toList 3 20 = some "func() \x7b\n\t\tx()\n\t\x7d".toList ∧
    '\n' ∈ "func() \x7b\n\t\tx()\n\t\x7d".toList ∧
    extractItems "\tf(func() \x7b\n\t\tx()\n\t\x7d)".toList singleFile ⟨3, 21, [4], [21]⟩ =
      some ["func() \x7b x() \x7d".toList] ∧
    processNode "\tf(func() \x7b\n\t\tx()\n\t\x7d)".toList singleFile ⟨3, 21, [4], [21]⟩ 120 4 =
      some "\tf(func() \x7b x() \x7d)".toList ∧
    processNode "\tf(func() \x7b\n\t\tx()\n\t\x7d)".toList singleFile ⟨3, 21, [4], [21]⟩ 10 4 =
      some "\tf(\n\t\tfunc() \x7b x() \x7d,\n\t)".toList := by
  decide

/-- C10 as stated fails: the raw string literal `` `a\n  b` ``, the only argument of
the call ``f(`a\n  b`)``, is extracted as `` `a b` ``, and `processNode` splices
``f(`a b`)`` in: the literal is not part of either text. -/
theorem normalizeWhitespace_literal_counterexample :
    normalizeWhitespace "`a\n  b`".toList = "`a b`".toList ∧
    extractItems "f(`a\n  b`)".toList singleFile ⟨2, 10, [3], [10]⟩ = some ["`a b`".toList] ∧
    processNode "f(`a\n  b`)".toList singleFile ⟨2, 10, [3], [10]⟩ 120 4 =
      some "f(`a b`)".toList ∧
    ¬ ("`a\n  b`".toList <:+: "`a b`".toList) ∧
    ¬ ("`a\n  b`".toList <:+: "f(`a b`)".toList) := by
  decide

/-- C10, amended (string literals in item text).  Take a text that starts and ends
with a character that is not white space, as a string literal does with its quotes,
and that occurs in the source slice of an item.  When the trimmed slice holds no
newline, the text occurs character for character in the item text `extractItems`
produces (`TrimSpace` followed by `normalizeWhitespace`).  When the trimmed slice
holds a newline, the text occurs in the item text exactly when it holds no tab, no
newline, no carriage return and no two adjacent spaces: single spaces inside a
literal are kept, any other white space in it is rewritten like white space outside
literals. -/
theorem extractItems_keeps_literal (raw mid : GoString) (q₁ q₂ : Char)
    (h₁ : isSpace q₁ = false) (h₂ : isSpace q₂ = false)
    (hin : q₁ :: (mid ++ [q₂]) <:+: raw) :
    ('\n' ∉ TrimSpace raw →
      q₁ :: (mid ++ [q₂]) <:+: normalizeWhitespace (TrimSpace raw)) ∧
    ('\n' ∈ TrimSpace raw →
      (q₁ :: (mid ++ [q₂]) <:+: normalizeWhitespace (TrimSpace raw) ↔
        '\n' ∉ q₁ :: (mid ++ [q₂]) ∧ '\r' ∉ q₁ :: (mid ++ [q₂]) ∧
          '\t' ∉ q₁ :: (mid ++ [q₂]) ∧ ¬ ("  ".toList <:+: q₁ :: (mid ++ [q₂])))) := by
  have htrim := infix_TrimSpace raw mid q₁ q₂ h₁ h₂ hin
  constructor
  · intro hnl
    rw [normalizeWhitespace_of_no_newline _ hnl]
    exact htrim
  · intro hnl
    constructor
    · intro hocc
      obtain ⟨ht, hr, hch⟩ := normalizeWhitespace_inv _ hnl
      have hn := normalizeWhitespace_no_newline (TrimSpace raw)
      exact ⟨fun h => hn (hocc.subset h), fun h => hr (hocc.subset h),
        fun h => ht (hocc.subset h), fun h => no_double_space_of_chain _ hch (h.trans hocc)⟩
    · rintro ⟨hn, hr, ht, hdouble⟩
      have hch := chain_of_no_double_space _ hdouble
      obtain ⟨a, b, hab⟩ := htrim
      unfold normalizeWhitespace
      rw [if_neg (not_not.mpr hnl), ← hab, List.foldl_append, List.foldl_append]
      obtain ⟨f, hf⟩ := foldl_normalizeStep_single (q₁ :: (mid ++ [q₂]))
        (a.foldl normalizeStep ([], false)) hn hr ht hch
        (fun _ hhead => by
          simp only [List.head?_cons, Option.some.injEq] at hhead
          rw [hhead] at h₁
          exact absurd h₁ (by decide))
      rw [hf]
      obtain ⟨z, hz⟩ := foldl_normalizeStep_extends b
        ((a.foldl normalizeStep ([], false)).1 ++ q₁ :: (mid ++ [q₂]), f)
      rw [hz]
      exact ⟨(a.foldl normalizeStep ([], false)).1, z, rfl⟩

/-- C10, amended, on two slices.  In ``" `a  b`\n"`` the trimmed slice holds no
newline and the literal `` `a  b` `` is kept with its two spaces.  In the item
``"g(\n\t\t`a b`)"``, which spans two lines, the literal `` `a b` `` with its single
space is kept: the item text is ``"g( `a b`)"``. -/
theorem extractItems_keeps_literal_witness :
    "`a  b`".toList <:+: normalizeWhitespace (TrimSpace " `a  b`\n".toList) ∧
    "`a b`".toList <:+: normalizeWhitespace (TrimSpace "g(\n\t\t`a b`)".toList) ∧
    normalizeWhitespace (TrimSpace "g(\n\t\t`a b`)".toList) = "g( `a b`)".toList :=
  ⟨(extractItems_keeps_literal " `a  b`\n".toList "a  b".toList '`' '`' (by decide) (by decide)
      (by decide)).1 (by decide),
    ((extractItems_keeps_literal "g(\n\t\t`a b`)".toList "a b".toList '`' '`' (by decide)
      (by decide) (by decide)).2 (by decide)).mpr (by decide),
    by decide⟩

theorem visualCol_snoc (s : GoString) (tw : Int) (c : Char) :
    visualCol (s ++ [c]) tw 0 = colStep tw (visualCol s tw 0) c := by
  simp [visualCol, List.foldl_append]

theorem colStep_tab (w v : Int) (hw : 1 ≤ w) (hv : 0 ≤ v)
    (hm : (v / w + 1) * w < 9223372036854775808) :
    colStep w v '\t' = (v / w + 1) * w := by
  have hq0 : 0 ≤ v / w := Int.ediv_nonneg hv (by omega)
  have hq1 : v / w ≤ v := Int.ediv_le_self _ hv
  have hq2 : v / w + 1 ≤ (v / w + 1) * w := by
    have := Int.mul_le_mul_of_nonneg_left hw (show 0 ≤ v / w + 1 by omega)
    simpa using this
  unfold colStep
  rw [if_pos rfl, Int.tdiv_eq_ediv hv (by omega), wrapInt_of_range (v / w) (by omega) (by omega),
    wrapInt_of_range (v / w + 1) (by omega) (by omega),
    wrapInt_of_range _ (by omega) hm]

theorem least_multiple (w v : Int) (hw : 1 ≤ w) :
    w ∣ (v / w + 1) * w ∧ v < (v / w + 1) * w ∧
      ∀ m' : Int, w ∣ m' → v < m' → (v / w + 1) * w ≤ m' := by
  refine ⟨Dvd.intro_left _ rfl, Int.lt_ediv_add_one_mul_self _ (by omega), ?_⟩
  intro m' hdvd hlt
  obtain ⟨k, rfl⟩ := hdvd
  have hpos : 0 < w := by omega
  have h1 : v / w < k := by
    apply Int.ediv_lt_of_lt_mul hpos
    rw [mul_comm]; exact hlt
  have h2 : v / w + 1 ≤ k := by omega
  calc (v / w + 1) * w ≤ k * w := Int.mul_le_mul_of_nonneg_right h2 (by omega)
    _ = w * k := mul_comm _ _

/-- Started at a column between 0 and `k * w`, a text of `n` characters ends at a
column between 0 and `(k + n) * w`, as long as that bound is below `2^63`. -/
theorem visualCol_bound (w : Int) (hw : 1 ≤ w) (s : GoString) :
    ∀ c k : Int, 0 ≤ k → 0 ≤ c → c ≤ k * w →
      (k + s.length) * w < 9223372036854775808 →
      0 ≤ visualCol s w c ∧ visualCol s w c ≤ (k + s.length) * w := by
  induction s with
  | nil => intro c k _ hc hck _; simpa [visualCol] using ⟨hc, hck⟩
  | cons a s ih =>
    intro c k hk hc hck hb
    have hlen : ((a :: s).length : Int) = (s.length : Int) + 1 := by simp
    rw [hlen] at hb ⊢
    have hs0 : (0 : Int) ≤ s.length := by omega
    have hmono : (k + 1) * w ≤ (k + (s.length + 1)) * w :=
      Int.mul_le_mul_of_nonneg_right (by omega) (by omega)
    have hkw : k * w + w = (k + 1) * w := by ring
    have hstep : 0 ≤ colStep w c a ∧ colStep w c a ≤ (k + 1) * w := by
      by_cases ha : a = '\t'
      · subst ha
        have hq : c / w ≤ k := by
          have : c / w ≤ k * w / w := Int.ediv_le_ediv (by omega) hck
          rwa [Int.mul_ediv_cancel _ (by omega)] at this
        have hq0 : 0 ≤ c / w := Int.ediv_nonneg hc (by omega)
        have hm : (c / w + 1) * w ≤ (k + 1) * w :=
          Int.mul_le_mul_of_nonneg_right (by omega) (by omega)
        have hm0 : 0 ≤ (c / w + 1) * w := Int.mul_nonneg (by omega) (by omega)
        rw [colStep_tab w c hw hc (by omega)]
        exact ⟨hm0, hm⟩
      · unfold colStep
        rw [if_neg ha, wrapInt_of_range (c + 1) (by omega) (by omega)]
        omega
    have := ih (colStep w c a) (k + 1) (by omega) hstep.1 hstep.2
      (by rw [show k + 1 + (s.length : Int) = k + (s.length + 1) by ring]; exact hb)
    rw [show k + 1 + (s.length : Int) = k + (s.length + 1) by ring] at this
    simpa [visualCol] using this

/-- C14 as stated fails: at the tab width `2^62` the text `"\t"` is `2^62` columns
wide, and the text `"\t\t"` is `-2^63` columns wide, the column `2^63` having
wrapped round; `-2^63` is not greater than `2^62`. -/
theorem visualLen_tab_aware_counterexample :
    visualLen "\t".toList 4611686018427387904 = some 4611686018427387904 ∧
    visualLen ("\t".toList ++ ['\t']) 4611686018427387904 = some (-9223372036854775808) ∧
    ¬ ((4611686018427387904 : Int) < -9223372036854775808) := by
  decide

/-- C14, amended (tab-aware visual width).  `visualLen("", w) = 0`.  For every
text `s`, tab width `w >= 1` and character `c`, `visualLen(s, w)` returns a width
`v`; when `c` is not a tab and `v + 1` is below `2^63`, `visualLen(s ++ c, w)` is
`v + 1`; when `v` is at least 0 and some multiple of `w` above `v` is below `2^63`,
`visualLen(s ++ "\t", w)` is the smallest multiple of `w` that is strictly greater
than `v`.  All these side conditions hold whenever `(len(s) + 1) * w` is below
`2^63`, `len` counting characters. -/
theorem visualLen_tab_aware (s : GoString) (w : Int) (c : Char) (hw : 1 ≤ w) :
    visualLen [] w = some 0 ∧
    ∃ v, visualLen s w = some v ∧
      (c ≠ '\t' → v + 1 < 9223372036854775808 → visualLen (s ++ [c]) w = some (v + 1)) ∧
      (0 ≤ v → (∃ m' : Int, w ∣ m' ∧ v < m' ∧ m' < 9223372036854775808) →
        ∃ m, visualLen (s ++ ['\t']) w = some m ∧
          w ∣ m ∧ v < m ∧ ∀ m' : Int, w ∣ m' → v < m' → m ≤ m') ∧
      (((s.length : Int) + 1) * w < 9223372036854775808 →
        0 ≤ v ∧ v + 1 < 9223372036854775808 ∧
          ∃ m' : Int, w ∣ m' ∧ v < m' ∧ m' < 9223372036854775808) := by
  have hw0 : w ≠ 0 := by omega
  have hrange := visualCol_range s w 0 (by omega)
  refine ⟨rfl, visualCol s w 0, visualLen_eq s w hw0, ?_, ?_, ?_⟩
  · intro hc hb
    rw [visualLen_eq _ w hw0, visualCol_snoc]
    unfold colStep
    rw [if_neg hc, wrapInt_of_range _ (by omega) hb]
  · rintro hv ⟨m', hdvd, hlt, hb⟩
    obtain ⟨h1, h2, h3⟩ := least_multiple w (visualCol s w 0) hw
    refine ⟨(visualCol s w 0 / w + 1) * w, ?_, h1, h2, h3⟩
    rw [visualLen_eq _ w hw0, visualCol_snoc,
      colStep_tab w _ hw hv (lt_of_le_of_lt (h3 m' hdvd hlt) hb)]
  · intro hb
    have hs0 : (0 : Int) ≤ s.length := by omega
    have hle : (s.length : Int) * w ≤ ((s.length : Int) + 1) * w :=
      Int.mul_le_mul_of_nonneg_right (by omega) (by omega)
    have hbound := visualCol_bound w hw s 0 0 (le_refl _) (le_refl _) (by simp)
      (by simpa using lt_of_le_of_lt hle hb)
    simp only [zero_add] at hbound
    have hexp : ((s.length : Int) + 1) * w = (s.length : Int) * w + w := by ring
    obtain ⟨h1, h2, _⟩ := least_multiple w (visualCol s w 0) hw
    have hq : visualCol s w 0 / w ≤ s.length := by
      have : visualCol s w 0 / w ≤ (s.length : Int) * w / w := Int.ediv_le_ediv (by omega) hbound.2
      rwa [Int.mul_ediv_cancel _ (by omega)] at this
    have hm : (visualCol s w 0 / w + 1) * w ≤ ((s.length : Int) + 1) * w :=
      Int.mul_le_mul_of_nonneg_right (by omega) (by omega)
    exact ⟨hbound.1, by omega, (visualCol s w 0 / w + 1) * w, h1, h2, by omega⟩

/-- C14, amended, on the texts of `TestVisualLen`: `"\thello"` is 9 columns wide,
`"\t\thello"` 13 and `"no tabs here"` 12, at tab width 4; after `"\t"`, 4 columns
wide, the letter `h` leads to column 5 and a second tab to column 8, the smallest
multiple of 4 above 4. -/
theorem visualLen_tab_aware_witness :
    visualLen "\thello".toList 4 = some 9 ∧ visualLen "\t\thello".toList 4 = some 13 ∧
    visualLen "no tabs here".toList 4 = some 12 ∧
    visualLen ("\t".toList ++ ['h']) 4 = some 5 ∧
    ∃ m, visualLen ("\t".toList ++ ['\t']) 4 = some m ∧
      (4 : Int) ∣ m ∧ 4 < m ∧ ∀ m' : Int, (4 : Int) ∣ m' → 4 < m' → m ≤ m' := by
  obtain ⟨_, v, hv, hchar, htab, hside⟩ := visualLen_tab_aware "\t".toList 4 'h' (by decide)
  have hv4 : v = 4 := by
    have h4 : visualLen "\t".toList 4 = some 4 := by decide
    rw [h4] at hv
    exact (Option.some.inj hv).symm
  subst hv4
  obtain ⟨h0, h1, h2⟩ := hside (by decide)
  exact ⟨by decide, by decide, by decide, hchar (by decide) h1, htab h0 h2⟩

theorem normalizeStep_filter (st : GoString × Bool) (r : Char) :
    (normalizeStep st r).1.filter (fun c => !isBlank c) =
      st.1.filter (fun c => !isBlank c) ++ [r].filter (fun c => !isBlank c) := by
  unfold normalizeStep
  by_cases h : r = '\n' ∨ r = '\r' ∨ r = '\t' ∨ r = ' '
  · have hb : isBlank r = true := by simpa [isBlank] using h
    have hsp : isBlank ' ' = true := by decide
    rw [if_pos h]
    split_ifs <;> simp [List.filter_append, List.filter_cons, hb, hsp]
  · have hb : isBlank r = false := by simpa [isBlank] using h
    rw [if_neg h]
    simp [List.filter_append, List.filter_cons, hb]

theorem foldl_normalizeStep_filter (s : GoString) :
    ∀ st : GoString × Bool, (s.foldl normalizeStep st).1.filter (fun c => !isBlank c) =
      st.1.filter (fun c => !isBlank c) ++ s.filter (fun c => !isBlank c) := by
  induction s with
  | nil => intro st; simp
  | cons r s ih =>
    intro st
    rw [List.foldl_cons, ih, normalizeStep_filter]
    simp [List.filter_cons]
    split_ifs <;> simp

/-- C20 (normalization only touches white space).  Deleting every space, tab,
newline and carriage return from `normalizeWhitespace(s)` gives the same character
sequence as deleting them from `s`. -/
theorem normalizeWhitespace_keeps_tokens (s : GoString) :
    (normalizeWhitespace s).filter (fun c => !isBlank c) = s.filter (fun c => !isBlank c) := by
  unfold normalizeWhitespace
  split_ifs
  · simpa using foldl_normalizeStep_filter s ([], false)
  · rfl

theorem head?_dropWhile_false (p : Char → Bool) (l : GoString) :
    ∀ c, (l.dropWhile p).head? = some c → p c = false := by
  induction l with
  | nil => intro c h; simp at h
  | cons a l ih =>
    intro c h
    rw [List.dropWhile_cons] at h
    split_ifs at h with ha
    · exact ih c h
    · simp only [List.head?_cons, Option.some.injEq] at h
      rw [← h]; simpa using ha

theorem TrimSpace_getLast (raw : GoString) :
    ∀ c, (TrimSpace raw).getLast? = some c → isSpace c = false := by
  intro c h
  unfold TrimSpace at h
  rw [List.getLast?_reverse] at h
  exact head?_dropWhile_false isSpace _ c h

theorem TrimSpace_head (raw : GoString) :
    ∀ c, (TrimSpace raw).head? = some c → isSpace c = false := by
  intro c h
  unfold TrimSpace at h
  rw [List.head?_reverse] at h
  obtain ⟨t, ht⟩ := List.dropWhile_suffix (l := (raw.dropWhile isSpace).reverse) isSpace
  have hne : ((raw.dropWhile isSpace).reverse.dropWhile isSpace) ≠ [] := by
    intro hnil; rw [hnil] at h; simp at h
  have h2 : ((raw.dropWhile isSpace).reverse).getLast? = some c := by
    rw [← ht, List.getLast?_append_of_ne_nil _ hne]; exact h
  rw [List.getLast?_reverse] at h2
  exact head?_dropWhile_false isSpace _ c h2

theorem normalizeWhitespace_head (s : GoString) (c : Char)
    (hs : ∀ d, s.head? = some d → isSpace d = false)
    (h : (normalizeWhitespace s).head? = some c) : isSpace c = false := by
  unfold normalizeWhitespace at h
  split_ifs at h with hnl
  · cases s with
    | nil => simp at h
    | cons d rest =>
      have hd := hs d rfl
      have hstep : normalizeStep ([], false) d = ([d], false) := by
        unfold normalizeStep
        rw [if_neg (not_blank_of_not_isSpace d hd)]
        rfl
      rw [List.foldl_cons, hstep] at h
      obtain ⟨z, hz⟩ := foldl_normalizeStep_extends rest ([d], false)
      rw [hz] at h
      simp only [List.singleton_append, List.head?_cons, Option.some.injEq] at h
      rw [← h]; exact hd
  · exact hs c h

theorem normalizeWhitespace_getLast (s : GoString) (c : Char)
    (hs : ∀ d, s.getLast? = some d → isSpace d = false)
    (h : (normalizeWhitespace s).getLast? = some c) : isSpace c = false := by
  unfold normalizeWhitespace at h
  split_ifs at h with hnl
  · rcases List.eq_nil_or_concat s with rfl | ⟨init, d, rfl⟩
    · simp at h
    · have hd := hs d (by simp)
      rw [List.concat_eq_append, List.foldl_append, List.foldl_cons, List.foldl_nil] at h
      have hstep : ∀ st, normalizeStep st d = (st.1 ++ [d], false) := by
        intro st
        unfold normalizeStep
        rw [if_neg (not_blank_of_not_isSpace d hd)]
      rw [hstep] at h
      rw [List.getLast?_append_of_ne_nil _ (by simp)] at h
      simp only [List.getLast?_singleton, Option.some.injEq] at h
      rw [← h]; exact hd
  · exact hs c h

theorem collapseRuns_nil : collapseRuns [] = [] := by
  rw [collapseRuns]

theorem collapseRuns_cons (c : Char) (rest : GoString) :
    collapseRuns (c :: rest) =
      if isBlank c then ' ' :: collapseRuns (rest.dropWhile isBlank)
      else c :: collapseRuns rest := by
  rw [collapseRuns]

/-- The loop of `normalizeWhitespace` writes the text with every run of white space
collapsed: started outside a run it appends `collapseRuns s`, started inside a run
it first skips what is left of that run. -/
theorem foldl_normalizeStep_collapse (s : GoString) :
    ∀ out : GoString,
      (s.foldl normalizeStep (out, false)).1 = out ++ collapseRuns s ∧
      (s.foldl normalizeStep (out, true)).1 = out ++ collapseRuns (s.dropWhile isBlank) := by
  induction s with
  | nil => intro out; simp [collapseRuns_nil]
  | cons c rest ih =>
    intro out
    by_cases hb : c = '\n' ∨ c = '\r' ∨ c = '\t' ∨ c = ' '
    · have hbl : isBlank c = true := by simpa [isBlank] using hb
      have h1 : normalizeStep (out, false) c = (out ++ [' '], true) := by
        unfold normalizeStep
        rw [if_pos hb]
        rfl
      have h2 : normalizeStep (out, true) c = (out, true) := by
        unfold normalizeStep
        rw [if_pos hb]
        rfl
      constructor
      · rw [List.foldl_cons, h1, (ih _).2, collapseRuns_cons, if_pos hbl]
        simp
      · rw [List.foldl_cons, h2, (ih _).2, List.dropWhile_cons, if_pos hbl]
    · have hbl : isBlank c = false := by simpa [isBlank] using hb
      have h1 : ∀ f, normalizeStep (out, f) c = (out ++ [c], false) := by
        intro f
        unfold normalizeStep
        rw [if_neg hb]
      constructor
      · rw [List.foldl_cons, h1, (ih _).1, collapseRuns_cons, if_neg (by simp [hbl])]
        simp
      · rw [List.foldl_cons, h1, (ih _).1, List.dropWhile_cons, if_neg (by simp [hbl]),
          collapseRuns_cons, if_neg (by simp [hbl])]
        simp

theorem normalizeWhitespace_collapse (s : GoString) (hnl : '\n' ∈ s) :
    normalizeWhitespace s = collapseRuns s := by
  unfold normalizeWhitespace
  rw [if_neg (not_not.mpr hnl)]
  simpa using (foldl_normalizeStep_collapse s []).1

/-- C11 as stated fails: the slice `" a  b\tc "` holds no newline, so the extracted
text is the trimmed slice `"a  b\tc"`, with its two adjacent spaces and its tab. -/
theorem extractItems_whitespace_counterexample :
    normalizeWhitespace (TrimSpace " a  b\tc ".toList) = "a  b\tc".toList ∧
    '\t' ∈ "a  b\tc".toList ∧ "  ".toList <:+: "a  b\tc".toList ∧
    extractItems "f( a  b\tc )".toList singleFile ⟨2, 11, [3], [11]⟩ =
      some ["a  b\tc".toList] := by
  decide

/-- C11, amended (white space in extracted item text).  The text `extractItems`
produces for a source slice (`TrimSpace` followed by `normalizeWhitespace`) has no
leading or trailing white space and no newline.  When the trimmed slice contains a
newline, the text is the trimmed slice in which every run of spaces, tabs, newlines
and carriage returns has become a single space (`collapseRuns`), all other
characters being kept in place; it contains no tab, no carriage return and no two
adjacent spaces.  When the trimmed slice contains no newline the text is the trimmed
slice, unchanged. -/
theorem extractItems_whitespace_collapsed (raw : GoString) :
    (∀ c, (normalizeWhitespace (TrimSpace raw)).head? = some c → isSpace c = false) ∧
    (∀ c, (normalizeWhitespace (TrimSpace raw)).getLast? = some c → isSpace c = false) ∧
    '\n' ∉ normalizeWhitespace (TrimSpace raw) ∧
    ('\n' ∈ TrimSpace raw →
      normalizeWhitespace (TrimSpace raw) = collapseRuns (TrimSpace raw) ∧
      '\t' ∉ normalizeWhitespace (TrimSpace raw) ∧
      '\r' ∉ normalizeWhitespace (TrimSpace raw) ∧
      (normalizeWhitespace (TrimSpace raw)).Chain' (fun a b => ¬ (a = ' ' ∧ b = ' '))) ∧
    ('\n' ∉ TrimSpace raw → normalizeWhitespace (TrimSpace raw) = TrimSpace raw) := by
  refine ⟨fun c h => normalizeWhitespace_head _ c (TrimSpace_head raw) h,
    fun c h => normalizeWhitespace_getLast _ c (TrimSpace_getLast raw) h,
    normalizeWhitespace_no_newline _, ?_, normalizeWhitespace_of_no_newline _⟩
  intro hnl
  exact ⟨normalizeWhitespace_collapse _ hnl, normalizeWhitespace_inv _ hnl⟩

/-- C11, amended, on the slice `" return\n\t\tx  +\r\n\t\ty "`: trimmed, it holds a
newline, and every run of white space in it becomes one space. -/
theorem extractItems_whitespace_collapsed_witness :
    collapseRuns (TrimSpace " return\n\t\tx  +\r\n\t\ty ".toList) = "return x + y".toList ∧
    normalizeWhitespace (TrimSpace " return\n\t\tx  +\r\n\t\ty ".toList) =
      "return x + y".toList :=
  ⟨by simp [TrimSpace, isSpace, collapseRuns_cons, collapseRuns_nil, isBlank],
    ((extractItems_whitespace_collapsed " return\n\t\tx  +\r\n\t\ty ".toList).2.2.2.1
      (by decide)).1.trans
      (by simp [TrimSpace, isSpace, collapseRuns_cons, collapseRuns_nil, isBlank])⟩

/-- C16 (result-list minimum arity).  The constructs `collectFuncType` records for
a function type are those it records for the same type without results, followed by
the result-list construct exactly when the result list has a valid opening position
(it is parenthesised) and at least two fields; a single unparenthesized result adds
no construct. -/
theorem collectFuncType_result_arity (ft : FuncType) (nodes : List wrappable) :
    (∀ results, ft.Results = some results →
      (collectFuncType ft nodes =
          collectFuncType { ft with Results := none } nodes ++ [fieldListWrappable results] ↔
        IsValid results.Opening = true ∧ 2 ≤ results.List.length)) ∧
    ((∀ results, ft.Results = some results →
        ¬ (IsValid results.Opening = true ∧ 2 ≤ results.List.length)) →
      collectFuncType ft nodes = collectFuncType { ft with Results := none } nodes) ∧
    (∀ results field, ft.Results = some results → results.List = [field] →
      results.Opening = 0 →
      collectFuncType ft nodes = collectFuncType { ft with Results := none } nodes) := by
  have key : ∀ results, ft.Results = some results →
      collectFuncType ft nodes =
        if results.List.length > 1 ∧ IsValid results.Opening = true then
          collectFuncType { ft with Results := none } nodes ++ [fieldListWrappable results]
        else collectFuncType { ft with Results := none } nodes := by
    intro results hr
    simp only [collectFuncType, hr]
  refine ⟨?_, ?_, ?_⟩
  · intro results hr
    rw [key results hr]
    constructor
    · intro h
      by_contra hc
      rw [if_neg (by intro h'; exact hc ⟨h'.2, h'.1⟩)] at h
      have := congrArg List.length h
      simp at this
    · intro h
      rw [if_pos ⟨h.2, h.1⟩]
  · intro h
    cases hr : ft.Results with
    | none => simp only [collectFuncType, hr]
    | some results =>
      rw [key results hr, if_neg (by intro h'; exact h results hr ⟨h'.2, h'.1⟩)]
  · intro results field hr hl ho
    rw [key results hr, if_neg (by rw [hl]; simp)]

/-- C17 (post-splice format error recovery).  With the canonical formatter and the
wrap pass arbitrary functions: when the first format pass succeeds, the wrap pass
succeeds and reports a change, and the second format pass fails,
`FormatWithTabWidth` returns the spliced buffer and no error. -/
theorem FormatWithTabWidth_recovers {ε : Type}
    (formatSource : GoString → GoString × Option ε)
    (wrapPass : GoString → Int → Int → Option (GoString × Bool × Option ε))
    (src formatted result : GoString) (maxLen tabWidth : Int)
    (hfirst : formatSource src = (formatted, none))
    (hwrap : wrapPass formatted maxLen tabWidth = some (result, true, none))
    (hsecond : (formatSource result).2.isSome = true) :
    FormatWithTabWidth formatSource wrapPass src maxLen tabWidth = some (result, none) := by
  unfold FormatWithTabWidth
  simp [hfirst, hwrap, hsecond]

/-- C17 with a formatter that accepts only `"a"` and a wrap pass that turns it into
`"b"`: the result is `"b"` and no error. -/
theorem FormatWithTabWidth_recovers_witness :
    FormatWithTabWidth
      (fun s => if s = "a".toList then (s, (none : Option Unit)) else ([], some ()))
      (fun _ _ _ => some ("b".toList, true, none)) "a".toList 120 4 =
      some ("b".toList, none) :=
  FormatWithTabWidth_recovers _ _ "a".toList "a".toList "b".toList 120 4
    (by decide) rfl (by decide)

theorem drop_of_index (src : GoString) (i : Int) (ch : Char) (h : index src i = some ch) :
    src.drop i.toNat = ch :: src.drop (i.toNat + 1) := by
  obtain ⟨h0, h1, hc⟩ := index_some src i ch h
  have hlt : i.toNat < src.length := by unfold len at h1; omega
  rw [List.drop_eq_getElem_cons hlt]
  congr 1
  unfold charAt at hc
  simpa [List.getD, List.getElem?_eq_getElem hlt] using hc

theorem extractItemsLoop_isSome (src : GoString) (fset : FileSet) (ps : List Pos) :
    ∀ (es : List Pos) (acc : List GoString), ps.length = es.length →
      (∀ pe ∈ ps.zip es, (fset.Position pe.1).Offset ≤ (fset.Position pe.2).Offset) →
      ∃ r, extractItemsLoop src fset ps es acc = some r := by
  induction ps with
  | nil => intro es acc _ _; exact ⟨acc, by simp [extractItemsLoop]⟩
  | cons p ps ih =>
    intro es acc hlen h
    cases es with
    | nil => simp at hlen
    | cons e es =>
      have hpe := h (p, e) (by simp)
      have htl : ∀ pe ∈ ps.zip es,
          (fset.Position pe.1).Offset ≤ (fset.Position pe.2).Offset :=
        fun pe hm => h pe (by simp [hm])
      simp only [extractItemsLoop]
      split_ifs with hg
      · exact ih es acc (by simpa using hlen) htl
      · have hs : slice src (fset.Position p).Offset (fset.Position e).Offset =
            some ((src.take (fset.Position e).Offset.toNat).drop
              (fset.Position p).Offset.toNat) := by
          unfold slice
          rw [if_pos]
          dsimp only at hpe
          omega
        rw [hs]
        exact ih es _ (by simpa using hlen) htl

/-- Outside a zero tab width `processNode` never fails on a construct whose
delimiter offsets are in range and whose item ranges are ordered. -/
theorem processNode_total (src : GoString) (fset : FileSet) (n : wrappable)
    (maxLen tw : Int) (htw : tw ≠ 0)
    (ho : 0 ≤ (fset.Position n.openPos).Offset ∧ (fset.Position n.openPos).Offset < len src)
    (hc : 0 ≤ (fset.Position n.closePos).Offset ∧ (fset.Position n.closePos).Offset < len src)
    (hlen : n.items.length = n.itemEnds.length)
    (hord : ∀ pe ∈ n.items.zip n.itemEnds,
      (fset.Position pe.1).Offset ≤ (fset.Position pe.2).Offset) :
    ∃ r, processNode src fset n maxLen tw = some r := by
  obtain ⟨items, hitems⟩ := extractItemsLoop_isSome src fset n.items n.itemEnds [] hlen hord
  by_cases hne : items = []
  · refine ⟨src, ?_⟩
    have hguard : ¬ ((fset.Position n.openPos).Offset < 0 ∨
        (fset.Position n.closePos).Offset < 0 ∨
        (fset.Position n.openPos).Offset ≥ len src ∨
        (fset.Position n.closePos).Offset ≥ len src) := by omega
    unfold processNode
    simp only [if_neg hguard, index_eq src _ ho.1 ho.2, index_eq src _ hc.1 hc.2,
      Option.some_bind, extractItems, hitems, hne, List.length_nil, if_true]
  · exact ⟨_, processNode_eq src fset n maxLen tw items htw ho.1 ho.2 hc.1 hc.2 hitems hne⟩

/-- C18 fails on the code: the call `f(1)` on the line `"\tf(1)"` is a well-formed
construct (open 2 < item start 3 <= item end 4 <= close 4 < length 5), and with the
tab width 0, which the flag `-t` accepts, `visualLen` divides by zero at the tab of
the line: `processNode` panics. -/
theorem processNode_panics_at_tab_width_zero :
    visualLen "\tf(1)".toList 0 = none ∧
    extractItems "\tf(1)".toList singleFile ⟨3, 5, [4], [5]⟩ = some ["1".toList] ∧
    processNode "\tf(1)".toList singleFile ⟨3, 5, [4], [5]⟩ 120 0 = none := by
  decide

/-- C19 (shape of the EXPAND replacement).  When the single-line rendering does not
fit, `visualLen(fullLine) > maxLen`, the result of `processNode` is
`src[:open] + opening delimiter + "\n" + packItems(items, indent + "\t", maxLen,
tabWidth) + indent + closing delimiter + src[close+1:]`, where `indent` is the
longest leading run of spaces and tabs of the line that contains the opening
delimiter. -/
theorem processNode_expand_shape (src : GoString) (fset : FileSet) (n : wrappable)
    (maxLen tabWidth : Int) (openOff closeOff : Int) (openChar closeChar : Char)
    (items : List GoString) (w : Int)
    (hopen : (fset.Position n.openPos).Offset = openOff)
    (hclose : (fset.Position n.closePos).Offset = closeOff)
    (hoc : index src openOff = some openChar) (hcc : index src closeOff = some closeChar)
    (hdelim : openChar ≠ ' ' ∧ openChar ≠ '\t')
    (hitems : extractItems src fset n = some items) (hne : items ≠ [])
    (htw : tabWidth ≠ 0)
    (hvis : visualLen (lineBefore src openOff ++
      ([openChar] ++ Join items ", ".toList ++ [closeChar])) tabWidth = some w)
    (hlong : maxLen < w) :
    ∃ indent rest packed,
      lineOf src openOff = indent ++ rest ∧
      (∀ ch ∈ indent, ch = ' ' ∨ ch = '\t') ∧
      (∀ ch, rest.head? = some ch → ¬ (ch = ' ' ∨ ch = '\t')) ∧
      packItems items (indent ++ "\t".toList) maxLen tabWidth = some packed ∧
      processNode src fset n maxLen tabWidth =
        some (src.take openOff.toNat ++
          ([openChar] ++ "\n".toList ++ packed ++ indent ++ [closeChar]) ++
          src.drop (closeOff + 1).toNat) := by
  obtain ⟨ho0, ho1, hoch⟩ := index_some src openOff openChar hoc
  obtain ⟨hc0, hc1, hcch⟩ := index_some src closeOff closeChar hcc
  have hdrop := drop_of_index src openOff openChar hoc
  subst hopen hclose
  have key := processNode_eq src fset n maxLen tabWidth items htw ho0 ho1 hc0 hc1 hitems hne
  rw [hoch, hcch] at key
  rw [visualLen_eq _ tabWidth htw] at hvis
  have hgt : ¬ visualCol (lineBefore src (fset.Position n.openPos).Offset ++
      ([openChar] ++ Join items ", ".toList ++ [closeChar])) tabWidth 0 ≤ maxLen := by
    rw [Option.some.inj hvis]; omega
  rw [if_neg hgt] at key
  refine ⟨extractIndent (lineBefore src (fset.Position n.openPos).Offset),
    (lineBefore src (fset.Position n.openPos).Offset).dropWhile
        (fun ch => ch = ' ' ∨ ch = '\t') ++
      (src.drop (fset.Position n.openPos).Offset.toNat).takeWhile (fun c => c ≠ '\n'),
    _, ?_, ?_, ?_, packItems_eq items _ maxLen tabWidth htw, key⟩
  · unfold lineOf extractIndent
    rw [← List.append_assoc, List.takeWhile_append_dropWhile]
  · intro ch hch
    unfold extractIndent at hch
    simpa using List.mem_takeWhile_imp hch
  · intro ch hch
    by_cases hnil : (lineBefore src (fset.Position n.openPos).Offset).dropWhile
        (fun ch => ch = ' ' ∨ ch = '\t') = []
    · rw [hnil, List.nil_append, hdrop, List.takeWhile_cons] at hch
      split_ifs at hch
      · simp only [List.head?_cons, Option.some.injEq] at hch
        rw [← hch]
        intro h
        rcases h with h | h
        · exact hdelim.1 h
        · exact hdelim.2 h
      · simp at hch
    · rw [List.head?_append_of_ne_nil _ hnil] at hch
      have := head?_dropWhile_false (fun ch => decide (ch = ' ' ∨ ch = '\t')) _ ch hch
      simpa using this

/-- C19 on the call `f(1, 2)` of the line `"\tf(1, 2)"` at width 10 and tab width 4:
the indent is the tab of the line and the items are packed one level deeper. -/
theorem processNode_expand_shape_witness :
    ∃ indent rest packed,
      lineOf "\tf(1, 2)".toList 2 = indent ++ rest ∧
      (∀ ch ∈ indent, ch = ' ' ∨ ch = '\t') ∧
      (∀ ch, rest.head? = some ch → ¬ (ch = ' ' ∨ ch = '\t')) ∧
      packItems ["1".toList, "2".toList] (indent ++ "\t".toList) 10 4 = some packed ∧
      processNode "\tf(1, 2)".toList singleFile ⟨3, 8, [4, 7], [5, 8]⟩ 10 4 =
        some ("\tf(1, 2)".toList.take (2 : Int).toNat ++
          (['('] ++ "\n".toList ++ packed ++ indent ++ [')']) ++
          "\tf(1, 2)".toList.drop ((7 : Int) + 1).toNat) :=
  processNode_expand_shape "\tf(1, 2)".toList singleFile ⟨3, 8, [4, 7], [5, 8]⟩ 10 4 2 7
    '(' ')' ["1".toList, "2".toList] 11
    (by decide) (by decide) (by decide) (by decide) (by decide) (by decide) (by decide)
    (by decide) (by decide) (by decide)

theorem len_append (a b : GoString) : len (a ++ b) = len a + len b := by
  simp [len]

theorem len_nonneg (a : GoString) : 0 ≤ len a := by
  simp [len]

theorem index_append_left (P S : GoString) (i : Int) (h : i < len P) :
    index (P ++ S) i = index P i := by
  unfold index
  by_cases h0 : 0 ≤ i
  · have hS := len_nonneg S
    rw [if_pos ⟨h0, by rw [len_append]; omega⟩, if_pos ⟨h0, h⟩]
    have : i.toNat < P.length := by unfold len at h; omega
    rw [List.getElem?_append_left this]
  · rw [if_neg (fun hh => h0 hh.1), if_neg (fun hh => h0 hh.1)]

theorem slice_append_left (P S : GoString) (lo hi : Int) (h : hi ≤ len P) :
    slice (P ++ S) lo hi = slice P lo hi := by
  unfold slice
  have hS := len_nonneg S
  by_cases hc : 0 ≤ lo ∧ lo ≤ hi
  · rw [if_pos ⟨hc.1, hc.2, by rw [len_append]; omega⟩, if_pos ⟨hc.1, hc.2, h⟩]
    have : hi.toNat ≤ P.length := by unfold len at h; omega
    rw [List.take_append_of_le_length this]
  · rw [if_neg (fun hh => hc ⟨hh.1, hh.2.1⟩), if_neg (fun hh => hc ⟨hh.1, hh.2.1⟩)]

theorem slice_append_tail (P S : GoString) (lo : Int) (h0 : 0 ≤ lo) (h : lo ≤ len P) :
    slice (P ++ S) lo (len (P ++ S)) = some (P.drop lo.toNat ++ S) := by
  rw [slice_from (P ++ S) lo h0 (by have := len_nonneg S; rw [len_append]; omega)]
  have : lo.toNat ≤ P.length := by unfold len at h; omega
  rw [List.drop_append_of_le_length this]

theorem extractItemsLoop_append (P S : GoString) (fset : FileSet) (ps : List Pos) :
    ∀ (es : List Pos) (acc : List GoString),
      (∀ p ∈ ps, (fset.Position p).Offset ≤ len P) →
      (∀ e ∈ es, (fset.Position e).Offset ≤ len P) →
      extractItemsLoop (P ++ S) fset ps es acc = extractItemsLoop P fset ps es acc := by
  induction ps with
  | nil => intro es acc _ _; simp [extractItemsLoop]
  | cons p ps ih =>
    intro es acc hp he
    cases es with
    | nil => simp [extractItemsLoop]
    | cons e es =>
      have hp1 := hp p (by simp)
      have he1 := he e (by simp)
      have hp2 : ∀ q ∈ ps, (fset.Position q).Offset ≤ len P :=
        fun q hq => hp q (List.mem_cons_of_mem _ hq)
      have he2 : ∀ q ∈ es, (fset.Position q).Offset ≤ len P :=
        fun q hq => he q (List.mem_cons_of_mem _ hq)
      have hS := len_nonneg S
      have hg : ((fset.Position p).Offset < 0 ∨ (fset.Position e).Offset < 0 ∨
            (fset.Position p).Offset > len (P ++ S) ∨
            (fset.Position e).Offset > len (P ++ S)) ↔
          ((fset.Position p).Offset < 0 ∨ (fset.Position e).Offset < 0 ∨
            (fset.Position p).Offset > len P ∨ (fset.Position e).Offset > len P) := by
        rw [len_append]; omega
      simp only [extractItemsLoop, hg, slice_append_left P S _ _ he1]
      split_ifs
      · exact ih es acc hp2 he2
      · cases slice P (fset.Position p).Offset (fset.Position e).Offset with
        | none => rfl
        | some raw => simp only [Option.some_bind]; exact ih es _ hp2 he2

theorem findLineStartLoop_append (P S : GoString) (k : Nat) (hk : k ≤ P.length) :
    findLineStartLoop (P ++ S) k = findLineStartLoop P k := by
  induction k with
  | zero => rfl
  | succ k ih =>
    have hi : index (P ++ S) (k : Int) = index P (k : Int) :=
      index_append_left P S _ (by unfold len; omega)
    simp only [findLineStartLoop, hi, ih (by omega)]

theorem map_bind_fun {α β γ : Type} (x : Option α) (f : α → Option β) (g : β → γ) :
    (x.bind f).map g = x.bind fun a => (f a).map g := by
  cases x <;> rfl

theorem processNode_append (P S : GoString) (fset : FileSet) (n : wrappable)
    (maxLen tw : Int)
    (ho : 0 ≤ (fset.Position n.openPos).Offset ∧ (fset.Position n.openPos).Offset < len P)
    (hc : 0 ≤ (fset.Position n.closePos).Offset ∧ (fset.Position n.closePos).Offset < len P)
    (hp : ∀ p ∈ n.items, (fset.Position p).Offset ≤ len P)
    (he : ∀ e ∈ n.itemEnds, (fset.Position e).Offset ≤ len P) :
    processNode (P ++ S) fset n maxLen tw =
      (processNode P fset n maxLen tw).map fun r => r ++ S := by
  have hS := len_nonneg S
  have hg1 : ¬ ((fset.Position n.openPos).Offset < 0 ∨ (fset.Position n.closePos).Offset < 0 ∨
      (fset.Position n.openPos).Offset ≥ len (P ++ S) ∨
      (fset.Position n.closePos).Offset ≥ len (P ++ S)) := by
    rw [len_append]; omega
  have hg2 : ¬ ((fset.Position n.openPos).Offset < 0 ∨ (fset.Position n.closePos).Offset < 0 ∨
      (fset.Position n.openPos).Offset ≥ len P ∨
      (fset.Position n.closePos).Offset ≥ len P) := by
    omega
  have hfl : findLineStart (P ++ S) (fset.Position n.openPos).Offset =
      findLineStart P (fset.Position n.openPos).Offset := by
    unfold findLineStart
    exact findLineStartLoop_append P S _ (by unfold len at ho; omega)
  have hex : extractItems (P ++ S) fset n = extractItems P fset n := by
    unfold extractItems
    exact extractItemsLoop_append P S fset _ _ _ hp he
  have htail : slice (P ++ S) ((fset.Position n.closePos).Offset + 1) (len (P ++ S)) =
      some (P.drop ((fset.Position n.closePos).Offset + 1).toNat ++ S) :=
    slice_append_tail P S _ (by omega) (by omega)
  have htailP : slice P ((fset.Position n.closePos).Offset + 1) (len P) =
      some (P.drop ((fset.Position n.closePos).Offset + 1).toNat) :=
    slice_from P _ (by omega) (by omega)
  unfold processNode
  simp only [if_neg hg1, if_neg hg2, index_append_left P S _ ho.2, index_append_left P S _ hc.2,
    hex, hfl, slice_append_left P S _ _ (le_of_lt ho.2), htail, htailP]
  simp only [map_bind_fun, apply_ite (Option.map fun r => r ++ S), Option.map_some',
    Option.some_bind,
    Option.map_none', List.append_assoc]

theorem wrapLoop_cons (fset : FileSet) (maxLen tw : Int) (n : wrappable)
    (rest : List wrappable) (result newResult : GoString) (changed : Bool)
    (h : processNode result fset n maxLen tw = some newResult) :
    ∃ ch, wrapLoop fset maxLen tw (n :: rest) result changed =
      wrapLoop fset maxLen tw rest newResult ch := by
  simp only [wrapLoop, h, Option.some_bind]
  by_cases hne : newResult = result
  · exact ⟨changed, by rw [if_neg (not_not.mpr hne), hne]⟩
  · exact ⟨true, by rw [if_pos hne]⟩

theorem wrapLoop_flag_stays (fset : FileSet) (maxLen tw : Int) (nodes : List wrappable) :
    ∀ (src r : GoString), wrapLoop fset maxLen tw nodes src true ≠ some (r, false) := by
  induction nodes with
  | nil => intro src r h; simp [wrapLoop] at h
  | cons n rest ih =>
    intro src r h
    simp only [wrapLoop] at h
    cases hp : processNode src fset n maxLen tw with
    | none => simp [hp] at h
    | some newResult =>
      rw [hp] at h
      simp only [Option.some_bind] at h
      split_ifs at h
      · exact ih _ _ h
      · exact ih _ _ h

theorem wrapLoop_unchanged (fset : FileSet) (maxLen tw : Int) (nodes : List wrappable) :
    ∀ (src r : GoString) (ch : Bool),
      wrapLoop fset maxLen tw nodes src ch = some (r, false) → r = src := by
  induction nodes with
  | nil =>
    intro src r ch h
    simp only [wrapLoop, Option.some.injEq, Prod.mk.injEq] at h
    exact h.1.symm
  | cons n rest ih =>
    intro src r ch h
    simp only [wrapLoop] at h
    cases hp : processNode src fset n maxLen tw with
    | none => simp [hp] at h
    | some newResult =>
      rw [hp] at h
      simp only [Option.some_bind] at h
      split_ifs at h with hne
      · exact absurd h (wrapLoop_flag_stays fset maxLen tw rest newResult r)
      · exact ih src r ch h

theorem wrapLoop_spans (orig : GoString) (fset : FileSet) (maxLen tw : Int)
    (repl : wrappable → GoString) (nodes : List wrappable) :
    ∀ (hi : Nat) (T : GoString) (ch : Bool), hi ≤ orig.length →
      (∀ n ∈ nodes, (fset.Position n.closePos).Offset < (hi : Int)) →
      nodes.Pairwise (fun a b =>
        (fset.Position b.closePos).Offset < (fset.Position a.openPos).Offset) →
      (∀ n ∈ nodes, 0 ≤ (fset.Position n.openPos).Offset ∧
        (fset.Position n.openPos).Offset ≤ (fset.Position n.closePos).Offset) →
      (∀ n ∈ nodes, (∀ p ∈ n.items,
          (fset.Position p).Offset ≤ (fset.Position n.closePos).Offset) ∧
        ∀ e ∈ n.itemEnds, (fset.Position e).Offset ≤ (fset.Position n.closePos).Offset) →
      (∀ n ∈ nodes, processNode orig fset n maxLen tw =
        some (orig.take (fset.Position n.openPos).Offset.toNat ++ repl n ++
          orig.drop ((fset.Position n.closePos).Offset.toNat + 1))) →
      ∃ changed, wrapLoop fset maxLen tw nodes (orig.take hi ++ T) ch =
        some (replaceSpans fset repl orig hi nodes ++ T, changed) := by
  induction nodes with
  | nil =>
    intro hi T ch _ _ _ _ _ _
    exact ⟨ch, by simp [wrapLoop, replaceSpans]⟩
  | cons n rest ih =>
    intro hi T ch hhi hclose hpair hrange hitems hrepl
    have hc := hclose n (List.mem_cons_self _ _)
    obtain ⟨ho0, hoc⟩ := hrange n (List.mem_cons_self _ _)
    obtain ⟨hp, he⟩ := hitems n (List.mem_cons_self _ _)
    have hr := hrepl n (List.mem_cons_self _ _)
    obtain ⟨hfirst, hpair'⟩ := List.pairwise_cons.mp hpair
    -- the part of the buffer up to the closing delimiter
    have hcN : (fset.Position n.closePos).Offset.toNat + 1 ≤ hi := by omega
    have hlenP : len (orig.take ((fset.Position n.closePos).Offset.toNat + 1)) =
        (fset.Position n.closePos).Offset + 1 := by
      unfold len
      rw [List.length_take, min_eq_left (by omega)]
      push_cast
      omega
    have horig : orig = orig.take ((fset.Position n.closePos).Offset.toNat + 1) ++
        orig.drop ((fset.Position n.closePos).Offset.toNat + 1) :=
      (List.take_append_drop _ _).symm
    have hbuf : orig.take hi ++ T = orig.take ((fset.Position n.closePos).Offset.toNat + 1) ++
        ((orig.take hi).drop ((fset.Position n.closePos).Offset.toNat + 1) ++ T) := by
      rw [← List.append_assoc]
      congr 1
      conv_lhs =>
        rw [← List.take_append_drop ((fset.Position n.closePos).Offset.toNat + 1)
          (orig.take hi)]
      rw [List.take_take, min_eq_left hcN]
    have happ : ∀ S, processNode (orig.take ((fset.Position n.closePos).Offset.toNat + 1) ++ S)
        fset n maxLen tw =
        (processNode (orig.take ((fset.Position n.closePos).Offset.toNat + 1))
          fset n maxLen tw).map fun r => r ++ S := by
      intro S
      apply processNode_append
      · rw [hlenP]; omega
      · rw [hlenP]; omega
      · intro p hpm; rw [hlenP]; have := hp p hpm; omega
      · intro e hem; rw [hlenP]; have := he e hem; omega
    have hP : processNode (orig.take ((fset.Position n.closePos).Offset.toNat + 1))
        fset n maxLen tw =
        some (orig.take (fset.Position n.openPos).Offset.toNat ++ repl n) := by
      have h1 := happ (orig.drop ((fset.Position n.closePos).Offset.toNat + 1))
      rw [← horig, hr] at h1
      cases hq : processNode (orig.take ((fset.Position n.closePos).Offset.toNat + 1))
          fset n maxLen tw with
      | none => rw [hq] at h1; simp at h1
      | some X =>
        rw [hq] at h1
        simp only [Option.map_some', Option.some.injEq] at h1
        rw [List.append_cancel_right h1]
    have hstep : processNode (orig.take hi ++ T) fset n maxLen tw =
        some (orig.take (fset.Position n.openPos).Offset.toNat ++
          (repl n ++ ((orig.take hi).drop ((fset.Position n.closePos).Offset.toNat + 1) ++
            T))) := by
      rw [hbuf, happ, hP]
      simp
    obtain ⟨ch', hloop⟩ := wrapLoop_cons fset maxLen tw n rest _ _ ch hstep
    rw [hloop]
    obtain ⟨changed, hrest⟩ := ih (fset.Position n.openPos).Offset.toNat
      (repl n ++ ((orig.take hi).drop ((fset.Position n.closePos).Offset.toNat + 1) ++ T))
      ch' (by omega)
      (fun m hm => by have := hfirst m hm; omega)
      hpair'
      (fun m hm => hrange m (List.mem_cons_of_mem _ hm))
      (fun m hm => hitems m (List.mem_cons_of_mem _ hm))
      (fun m hm => hrepl m (List.mem_cons_of_mem _ hm))
    refine ⟨changed, ?_⟩
    rw [hrest]
    simp [replaceSpans]

/-- The model of `sort.Slice` in `wrapIfLong` returns the same constructs, in
descending order of opening position. -/
theorem sortNodes_sorted (nodes : List wrappable) :
    (sortNodes nodes).Perm nodes ∧
      (sortNodes nodes).Pairwise (fun a b => a.openPos ≥ b.openPos) := by
  refine ⟨List.perm_insertionSort _ nodes, ?_⟩
  haveI : IsTotal wrappable (fun a b => a.openPos ≥ b.openPos) :=
    ⟨fun a b => le_total b.openPos a.openPos⟩
  haveI : IsTrans wrappable (fun a b => a.openPos ≥ b.openPos) :=
    ⟨fun a b c hab hbc => ge_trans hab hbc⟩
  exact List.sorted_insertionSort (fun a b => a.openPos ≥ b.openPos) nodes

/-- After the sort of `wrapIfLong`, constructs with pairwise disjoint spans stand
from right to left: each one ends before the opening delimiter of every construct
listed before it. -/
theorem sortNodes_right_to_left (fset : FileSet) (found : List wrappable)
    (hmono : ∀ a ∈ found, ∀ b ∈ found,
      (fset.Position a.openPos).Offset < (fset.Position b.openPos).Offset →
      a.openPos < b.openPos)
    (hdisjoint : found.Pairwise (fun a b =>
      (fset.Position a.closePos).Offset < (fset.Position b.openPos).Offset ∨
      (fset.Position b.closePos).Offset < (fset.Position a.openPos).Offset))
    (hrange : ∀ n ∈ found,
      (fset.Position n.openPos).Offset ≤ (fset.Position n.closePos).Offset) :
    (sortNodes found).Pairwise (fun a b =>
      (fset.Position b.closePos).Offset < (fset.Position a.openPos).Offset) := by
  obtain ⟨hperm, hsorted⟩ := sortNodes_sorted found
  have hdis : (sortNodes found).Pairwise (fun a b =>
      (fset.Position a.closePos).Offset < (fset.Position b.openPos).Offset ∨
      (fset.Position b.closePos).Offset < (fset.Position a.openPos).Offset) :=
    (hperm.pairwise_iff (fun h => h.symm)).mpr hdisjoint
  refine (hsorted.and hdis).imp_of_mem ?_
  intro a b ha hb hab
  obtain ⟨hge, hd⟩ := hab
  have hge' : b.openPos ≤ a.openPos := hge
  rcases hd with hd | hd
  · have hra := hrange a (hperm.subset ha)
    have hlt := hmono a (hperm.subset ha) b (hperm.subset hb) (lt_of_le_of_lt hra hd)
    exact absurd hlt (not_lt.mpr hge')
  · exact hd

/-- C12 (splice correctness for disjoint constructs).  Let the constructs found
in a buffer, in whatever order discovery lists them, have spans that are in range
and pairwise disjoint, the position service keeping the order of the opening
delimiters, every item range ending at or before the closing delimiter of its
construct, and let `repl n` be the text `processNode` puts in place of the span of
`n` when run on the original buffer.  Then `wrapIfLong`, which sorts the constructs
by descending opening position and runs `processNode` on the running buffer,
returns the original buffer in which the span of every construct is replaced by
`repl n` and all text outside the spans is kept (`replaceSpans` over the constructs
listed from right to left). -/
theorem wrapIfLong_splices_disjoint {ε : Type}
    (discover : GoString → Except ε (FileSet × List wrappable))
    (orig : GoString) (fset : FileSet) (maxLen tabWidth : Int)
    (repl : wrappable → GoString) (found : List wrappable)
    (hdiscover : discover orig = Except.ok (fset, found)) (hne : found ≠ [])
    (hmono : ∀ a ∈ found, ∀ b ∈ found,
      (fset.Position a.openPos).Offset < (fset.Position b.openPos).Offset →
      a.openPos < b.openPos)
    (hdisjoint : found.Pairwise (fun a b =>
      (fset.Position a.closePos).Offset < (fset.Position b.openPos).Offset ∨
      (fset.Position b.closePos).Offset < (fset.Position a.openPos).Offset))
    (hrange : ∀ n ∈ found, 0 ≤ (fset.Position n.openPos).Offset ∧
      (fset.Position n.openPos).Offset ≤ (fset.Position n.closePos).Offset ∧
      (fset.Position n.closePos).Offset < len orig)
    (hitems : ∀ n ∈ found,
      (∀ p ∈ n.items, (fset.Position p).Offset ≤ (fset.Position n.closePos).Offset) ∧
      ∀ e ∈ n.itemEnds, (fset.Position e).Offset ≤ (fset.Position n.closePos).Offset)
    (hrepl : ∀ n ∈ found, processNode orig fset n maxLen tabWidth =
      some (orig.take (fset.Position n.openPos).Offset.toNat ++ repl n ++
        orig.drop ((fset.Position n.closePos).Offset.toNat + 1))) :
    ∃ desc changed, desc.Perm found ∧
      desc.Pairwise (fun a b =>
        (fset.Position b.closePos).Offset < (fset.Position a.openPos).Offset) ∧
      wrapIfLong discover orig maxLen tabWidth =
        some (replaceSpans fset repl orig orig.length desc, changed, none) := by
  obtain ⟨hperm, _⟩ := sortNodes_sorted found
  have hdesc := sortNodes_right_to_left fset found hmono hdisjoint
    (fun n hn => (hrange n hn).2.1)
  obtain ⟨changed, hloop⟩ := wrapLoop_spans orig fset maxLen tabWidth repl (sortNodes found)
    orig.length [] false (le_refl _)
    (fun n hn => by
      have := (hrange n (hperm.subset hn)).2.2
      unfold len at this
      exact this)
    hdesc
    (fun n hn => ⟨(hrange n (hperm.subset hn)).1, (hrange n (hperm.subset hn)).2.1⟩)
    (fun n hn => hitems n (hperm.subset hn))
    (fun n hn => hrepl n (hperm.subset hn))
  simp only [List.take_length, List.append_nil] at hloop
  have hlen : ¬ found.length = 0 := by
    simpa [List.length_eq_zero] using hne
  refine ⟨sortNodes found, changed, hperm, hdesc, ?_⟩
  simp only [wrapIfLong, hdiscover, if_neg hlen, hloop, Option.some_bind]
  cases changed with
  | true => rfl
  | false =>
    have := wrapLoop_unchanged fset maxLen tabWidth (sortNodes found) orig _ false hloop
    simp [this]

set_option maxRecDepth 100000 in
/-- C12 on `twoCalls`, two calls on separate lines that discovery lists in document
order, at width 120: `wrapIfLong` collapses both, and the result,
`"\tf(1)\n\tg(2)\n"`, is the original text with the span of each call replaced. -/
theorem wrapIfLong_splices_disjoint_witness :
    (∃ desc changed, desc.Perm [twoCallsFirst, twoCallsSecond] ∧
      desc.Pairwise (fun a b =>
        (singleFile.Position b.closePos).Offset < (singleFile.Position a.openPos).Offset) ∧
      wrapIfLong discoverTwoCalls twoCalls 120 4 =
        some (replaceSpans singleFile twoCallsRepl twoCalls twoCalls.length desc, changed,
          none)) ∧
    wrapIfLong discoverTwoCalls twoCalls 120 4 = some ("\tf(1)\n\tg(2)\n".toList, true, none) ∧
    replaceSpans singleFile twoCallsRepl twoCalls twoCalls.length
      [twoCallsSecond, twoCallsFirst] = "\tf(1)\n\tg(2)\n".toList :=
  ⟨wrapIfLong_splices_disjoint discoverTwoCalls twoCalls singleFile 120 4 twoCallsRepl
      [twoCallsFirst, twoCallsSecond] (if_pos rfl) (by decide) (by decide) (by decide)
      (by decide) (by decide) (by decide),
    by decide, by decide⟩

/-- C13 fails on the code: in `nestedCalls` the inner call is processed first and
collapses, which shortens the buffer by six characters; when the outer call is
processed its recorded closing offset 38, where the original buffer has its `)`,
holds the `(` of `foo()`, and its recorded item range holds `g(1))\n\tfoo`.  The
replacement is spliced over that foreign text and the statements `f(g(1))` and
`foo()` end up on one line. -/
theorem wrapLoop_nested_offsets_stale :
    sortNodes [nestedOuter, nestedInner] = [nestedInner, nestedOuter] ∧
    processNode nestedCalls singleFile nestedInner 120 4 = some nestedCallsInnerDone ∧
    index nestedCalls 38 = some ')' ∧
    index nestedCallsInnerDone 38 = some '(' ∧
    slice nestedCallsInnerDone 28 38 = some "g(1))\n\tfoo".toList ∧
    processNode nestedCallsInnerDone singleFile nestedOuter 120 4 = some nestedCallsSpliced ∧
    wrapLoop singleFile 120 4 (sortNodes [nestedOuter, nestedInner]) nestedCalls false =
      some (nestedCallsSpliced, true) := by
  decide

/-- C15 fails on the code.  For any formatter that returns `nestedCalls` unchanged
and rejects `nestedCallsSpliced`, and any discovery that finds the two calls of
`nestedCalls`, as `go/format` and `go/parser` do: formatting `nestedCalls` succeeds
with the output `nestedCallsSpliced`, and formatting that output fails. -/
theorem FormatWithTabWidth_not_idempotent {ε : Type}
    (formatSource : GoString → GoString × Option ε)
    (discover : GoString → Except ε (FileSet × List wrappable)) (err : ε)
    (hformat : formatSource nestedCalls = (nestedCalls, none))
    (hdiscover : discover nestedCalls = Except.ok (singleFile, [nestedOuter, nestedInner]))
    (hreject : formatSource nestedCallsSpliced = ([], some err)) :
    FormatWithTabWidth formatSource (wrapIfLong discover) nestedCalls 120 4 =
      some (nestedCallsSpliced, none) ∧
    FormatWithTabWidth formatSource (wrapIfLong discover) nestedCallsSpliced 120 4 =
      some ([], some err) := by
  have hloop : wrapLoop singleFile 120 4 (sortNodes [nestedOuter, nestedInner]) nestedCalls
      false = some (nestedCallsSpliced, true) := by decide
  have hwrap : wrapIfLong discover nestedCalls 120 4 = some (nestedCallsSpliced, true, none) := by
    simp [wrapIfLong, hdiscover, hloop]
  constructor
  · simp [FormatWithTabWidth, hformat, hwrap, hreject]
  · simp [FormatWithTabWidth, hreject]

/-- C15's failure with the stand-ins for `go/format` and `go/parser` on the
example. -/
theorem FormatWithTabWidth_not_idempotent_witness :
    FormatWithTabWidth formatOnExample (wrapIfLong discoverOnExample) nestedCalls 120 4 =
      some (nestedCallsSpliced, none) ∧
    FormatWithTabWidth formatOnExample (wrapIfLong discoverOnExample) nestedCallsSpliced 120 4 =
      some ([], some "expected semicolon, found foo") :=
  FormatWithTabWidth_not_idempotent formatOnExample discoverOnExample
    "expected semicolon, found foo" (by decide) (if_pos rfl) (by decide)

end Golandfmt
